import Mathlib

/-! Routing table of the DHT node (`src/dht/node.cpp`).

A shallow embedding of `dht::Node` and of the helpers it is built from,
followed by the properties of the routing-table specification.

Conventions of the embedding:

* `Uint8`/`Uint32` values are natural numbers; every place where the C++
  arithmetic can wrap carries an explicit `% 2 ^ w`.
* A `dht::Key` is the list of its 20 bytes, most significant byte first.
* Collaborators that live outside `node.cpp` (`KBucket`, `bt::File`, the
  constants of `kbucket.h`) are either parameters of the embedding or are
  modelled from the specification, and say so in their doc comment.
-/

namespace dht

/-! ## Keys -/

/-- A 160-bit identifier, stored as `Uint8 data[20]`, byte 0 being the most
significant one. -/
structure Key where
  data : List Nat
  size_eq : data.length = 20
  byte_lt : ∀ b ∈ data, b < 256

/-- Byte-wise equality of keys (`Key::operator ==`). -/
instance : DecidableEq Key := fun a b =>
  if h : a.data = b.data then
    isTrue (by cases a; cases b; cases h; rfl)
  else
    isFalse (fun e => h (e ▸ rfl))

/-- Value of a byte string read as a big-endian number. -/
def bytesToNat : List Nat → Nat
  | [] => 0
  | b :: rest => b * 256 ^ rest.length + bytesToNat rest

/-- The key read as a 160-bit big-endian integer. -/
def Key.toNat (k : Key) : Nat := bytesToNat k.data

/-- Modelled from the spec: `Key::distance` (key.cpp is not part of the
sources): "a `distance` operation returning another Key equal to the bitwise
XOR of two keys". -/
def Key.distance (a b : Key) : Key where
  data := List.zipWith (fun x y => x ^^^ y) a.data b.data
  size_eq := by simp [a.size_eq, b.size_eq]
  byte_lt := by
    intro v hv
    obtain ⟨i, hi, rfl⟩ := List.getElem_of_mem hv
    simp only [List.getElem_zipWith]
    have h8 : (256 : Nat) = 2 ^ 8 := by norm_num
    rw [h8]
    exact Nat.xor_lt_two_pow (h8 ▸ a.byte_lt _ (List.getElem_mem _))
      (h8 ▸ b.byte_lt _ (List.getElem_mem _))

/-! ## `Node::findBucket` -/

/-- Inner loop of `findBucket` (`for (Uint8 j = 0; j < 8; j++)`), with `n`
iterations left, so that `j = 8 - n`.  `b` is the byte under inspection and
`i` its position in the key.  The result is `none` when the loop ends without
returning. -/
def findBucketBit (b i : Nat) : Nat → Option Nat
  | 0 => none
  | n + 1 =>
    let j := 7 - n
    if b &&& (0x80 >>> j) ≠ 0 then
      some (((19 - i) * 8 + (7 - j)) % 256)
    else
      findBucketBit b i n

/-- Outer loop of `findBucket` (`for (Uint32 i = 0; i < 20; i++)`) over the
bytes of the distance that are still to be inspected; `i` is the position of
the head of the list.  `0xFF` is the initial value of `bit_on`. -/
def findBucketScan : List Nat → Nat → Nat
  | [], _ => 0xFF
  | b :: rest, i =>
    if b = 0x00 then
      findBucketScan rest (i + 1)
    else
      match findBucketBit b i 8 with
      | some bit_on => bit_on
      | none => findBucketScan rest (i + 1)

/-- Method `Uint8 Node::findBucket(const dht::Key & id)` of a node whose
identifier is `our_id`. -/
def findBucket (our_id id : Key) : Nat :=
  findBucketScan (Key.distance id our_id).data 0

/-! ## `RandomKeyInBucket` -/

/-- Constructor `Key(const Uint8*)`: copies 20 bytes out of a buffer.  A byte
outside the buffer reads as 0 and every byte is a `Uint8`. -/
def Key.ofData (buf : List Nat) : Key where
  data := (List.range 20).map fun i => buf.getD i 0 % 256
  size_eq := by simp
  byte_lt := by
    intro v hv
    obtain ⟨i, _, rfl⟩ := List.mem_map.mp hv
    exact Nat.mod_lt _ (by norm_num)

/-- First loop of `RandomKeyInBucket` (`for (Uint8 i = 0; i < nb; i++)
data[i] = our_id[i]`), `n` iterations done. -/
def copyBytes (our_id : List Nat) : Nat → List Nat → List Nat
  | 0, data => data
  | n + 1, data => (copyBytes our_id n data).set n (our_id.getD n 0)

/-- Second loop of `RandomKeyInBucket` (`for (Uint8 j = 0; j < b % 8; j++)`),
`n` iterations done: bit `0x80 >> j` of `data[nb]` is made equal to the same
bit of `ob`.  `~(0x80 >> j)` restricted to a `Uint8` is `0xFF ^ (0x80 >> j)`. -/
def copyBits (ob nb : Nat) : Nat → List Nat → List Nat
  | 0, data => data
  | n + 1, data =>
    let d := copyBits ob nb n data
    let j := n
    if (0x80 >>> j) &&& ob ≠ 0 then
      d.set nb ((d.getD nb 0 ||| (0x80 >>> j)) % 256)
    else
      d.set nb ((d.getD nb 0 &&& (0xFF ^^^ (0x80 >>> j))) % 256)

/-- Function `Key RandomKeyInBucket(Uint32 b, const Key & our_id)`.  The
argument `r` is the key that the call of `dht::Key::random()` returns. -/
def RandomKeyInBucket (b : Nat) (our_id r : Key) : Key :=
  let data := r.data
  let nb := (b / 8) % 256
  let data := copyBytes our_id.data nb data
  let ob := our_id.data.getD nb 0
  let data := copyBits ob nb (b % 8) data
  let data :=
    if (0x80 >>> (b % 8)) &&& ob ≠ 0 then
      data.set nb ((data.getD nb 0 &&& (0xFF ^^^ (0x80 >>> (b % 8)))) % 256)
    else
      data.set nb ((data.getD nb 0 ||| (0x80 >>> (b % 8))) % 256)
  Key.ofData data

/-! ## Collaborators of the routing table -/

/-- A contact, `KBucketEntry(origin, id)`.  The network address is kept
abstract as a number. -/
structure KBucketEntry where
  origin : Nat
  id : Key

/-- The part of a DHT message that the routing table looks at. -/
structure MsgBase where
  id : Key
  origin : Nat
  destination : Nat

/-- Modelled from the spec: `struct BucketHeader` (kbucket.h is not part of the
sources).  The specification lists three 32-bit fields: magic, num_entries,
index. -/
structure BucketHeader where
  magic : Nat
  num_entries : Nat
  index : Nat
deriving DecidableEq

/-- Modelled from the spec: `sizeof(BucketHeader)`, three 32-bit fields. -/
def sizeofBucketHeader : Nat := 12

/-- A 32-bit value as four bytes, least significant first. -/
def u32ToBytes (v : Nat) : List Nat :=
  [v % 256, v / 256 % 256, v / 65536 % 256, v / 16777216 % 256]

/-- Four bytes, least significant first, as a 32-bit value. -/
def bytesToU32 (bs : List Nat) : Nat :=
  bs.getD 0 0 % 256 + 256 * (bs.getD 1 0 % 256) + 65536 * (bs.getD 2 0 % 256)
    + 16777216 * (bs.getD 3 0 % 256)

/-- Modelled from the spec: the bytes of a `BucketHeader` in a table file, its
fields in the order of the specification's table. -/
def encodeHeader (h : BucketHeader) : List Nat :=
  u32ToBytes h.magic ++ u32ToBytes h.num_entries ++ u32ToBytes h.index

/-- Modelled from the spec: the `BucketHeader` that `fptr.read(&hdr, sizeof
(BucketHeader))` leaves in `hdr` after reading the bytes `raw`. -/
def decodeHeader (raw : List Nat) : BucketHeader where
  magic := bytesToU32 (raw.take 4)
  num_entries := bytesToU32 ((raw.drop 4).take 4)
  index := bytesToU32 ((raw.drop 8).take 4)

/-- Modelled from the spec: a `bt::File` opened for reading (util/file.h is not
part of the sources): the bytes that have not been read yet and the
end-of-file indicator, which a read sets when it asks for more bytes than are
left. -/
structure File where
  bytes : List Nat
  at_eof : Bool

/-- Modelled from the spec: `File::read(buf, size)`: the bytes read (as many
as asked for, or all that are left) and the file afterwards. -/
def File.read (f : File) (size : Nat) : List Nat × File :=
  (f.bytes.take size, { bytes := f.bytes.drop size, at_eof := f.at_eof || decide (f.bytes.length < size) })

/-- Modelled from the spec: `File::eof()`. -/
def File.eof (f : File) : Bool := f.at_eof

/-- What the routing table does to a file of the file system. -/
inductive FileOp where
  | openRead
  | openWrite
  | write (bytes : List Nat)
  | delete
deriving DecidableEq

/-- Modelled from the spec: a file of the file system, named by a path in the
source (the key file, the table file).  `content` is `none` when the file
cannot be opened for reading (it is absent, for instance); `writable` tells
whether `open(path, "wb")` succeeds; `log` records what was done to the file,
oldest operation first. -/
structure DiskFile where
  content : Option (List Nat)
  writable : Bool
  log : List FileOp

/-- Modelled from the spec: `KClosestNodesSearch` (kclosestnodessearch.h is not
part of the sources), the "externally-owned accumulator" of the k-closest
dispatch: the entries it holds. -/
structure KClosestNodesSearch where
  entries : List KBucketEntry

/-- The interface of `KBucket` as `Node` uses it, over an arbitrary
representation `B` of a bucket; kbucket.h and kbucket.cpp are not part of the
sources, so the bucket and the constants `K` and `BUCKET_MAGIC_NUMBER` are
parameters of the embedding. -/
structure KBucketOps (B : Type) where
  /-- Constant `dht::K`, the capacity of a bucket. -/
  K : Nat
  /-- Constant `dht::BUCKET_MAGIC_NUMBER`. -/
  BUCKET_MAGIC_NUMBER : Nat
  /-- Constructor call `new KBucket(index, srv, node)`. -/
  create : Nat → B
  /-- Method `KBucket::insert(entry)`: the bucket afterwards. -/
  insert : B → KBucketEntry → B
  /-- Method `KBucket::getNumEntries()`. -/
  getNumEntries : B → Nat
  /-- Method `KBucket::save(fptr)`: the bytes appended to the file. -/
  save : B → List Nat
  /-- Method `KBucket::load(fptr, hdr)` on a file whose unread bytes are given: the
  bucket afterwards and the number of bytes the bucket asked the file for. -/
  load : B → BucketHeader → List Nat → B × Nat
  /-- Method `KBucket::onTimeout(addr)`: the value returned (whether the bucket
  owns a pending request to `addr`) and the bucket afterwards. -/
  onTimeout : B → Nat → Bool × B
  /-- Method `KBucket::findKClosestNodes(kns)`: the bucket and the accumulator
  afterwards. -/
  findKClosestNodes : B → KClosestNodesSearch → B × KClosestNodesSearch

/-- The DHT engine as the routing table sees it: how many times
`findOwnNode()` has been called. -/
structure DHT where
  findOwnNodeCalls : Nat
deriving DecidableEq

/-- Method `DHT::findOwnNode()`: a lookup of the node's own identifier is requested. -/
def DHT.findOwnNode (dh_table : DHT) : DHT :=
  { findOwnNodeCalls := dh_table.findOwnNodeCalls + 1 }

/-! ## The node -/

/-- Modelled from the spec: the width of the counter `num_receives` (node.h is
not part of the sources; the specification declares `insertion_count: u64`). -/
def NUM_RECEIVES_BITS : Nat := 64

/-- Modelled from the spec: the width of the counter `num_entries` (node.h is
not part of the sources; the specification declares `total_entry_count: u32`). -/
def NUM_ENTRIES_BITS : Nat := 32

/-- The data members of `dht::Node`; `bucket` is `KBucket* bucket[160]`, a
null pointer being `none`. -/
structure Node (B : Type) where
  our_id : Key
  bucket : Fin 160 → Option B
  num_receives : Nat
  num_entries : Nat
  delete_table : Bool

/-- Why a run of the embedding stops without a result: the code indexes
`bucket` outside its 160 slots, it calls a member of a null bucket, or the
embedding was given too little fuel. -/
inductive Abort where
  | outOfBounds (index : Nat)
  | nullBucket (index : Nat)
  | outOfFuel
deriving DecidableEq

variable {B : Type}

/-- Reading `bucket[i]`. -/
def Node.readSlot (n : Node B) (i : Nat) : Except Abort (Option B) :=
  if h : i < 160 then .ok (n.bucket ⟨i, h⟩) else .error (.outOfBounds i)

/-- Assigning `bucket[i] = v`. -/
def Node.writeSlot (n : Node B) (i : Nat) (v : Option B) : Except Abort (Node B) :=
  if h : i < 160 then .ok { n with bucket := Function.update n.bucket ⟨i, h⟩ v }
  else .error (.outOfBounds i)

/-- The loop `for (Uint32 i = 0; i < 160; i++) if (bucket[i]) num_entries +=
bucket[i]->getNumEntries();` started from `num_entries = 0`. -/
def Node.countEntries (ops : KBucketOps B) (n : Node B) : Nat :=
  (List.finRange 160).foldl
    (fun num_entries i =>
      match n.bucket i with
      | some b => (num_entries + ops.getNumEntries b) % 2 ^ NUM_ENTRIES_BITS
      | none => num_entries)
    0

/-- Method `Node::received(dh_table, msg)`: the node and the DHT engine after
the call. -/
def Node.received (ops : KBucketOps B) (n : Node B) (dh_table : DHT) (msg : MsgBase) :
    Except Abort (Node B × DHT) :=
  let bit_on := findBucket n.our_id msg.id
  -- return if bit_on is not good
  if bit_on ≥ 160 then
    .ok (n, dh_table)
  else
    -- make the bucket if it doesn't exist
    match n.readSlot bit_on with
    | .error e => .error e
    | .ok cur =>
      match (if cur.isNone then n.writeSlot bit_on (some (ops.create bit_on)) else .ok n) with
      | .error e => .error e
      | .ok n1 =>
        -- insert it into the bucket
        match n1.readSlot bit_on with
        | .error e => .error e
        | .ok none => .error (.nullBucket bit_on)
        | .ok (some kb) =>
          match n1.writeSlot bit_on (some (ops.insert kb { origin := msg.origin, id := msg.id })) with
          | .error e => .error e
          | .ok n2 =>
            let num_receives := (n2.num_receives + 1) % 2 ^ NUM_RECEIVES_BITS
            -- do a node lookup upon our own id
            let dh_table := if num_receives = 3 then dh_table.findOwnNode else dh_table
            let n3 := { n2 with num_receives := num_receives }
            .ok ({ n3 with num_entries := n3.countEntries ops }, dh_table)

/-- A sequence of calls of `received`, oldest message first. -/
def Node.receivedAll (ops : KBucketOps B) (n : Node B) (dh_table : DHT) :
    List MsgBase → Except Abort (Node B × DHT)
  | [] => .ok (n, dh_table)
  | msg :: rest =>
    match n.received ops dh_table msg with
    | .error e => .error e
    | .ok (n1, dh1) => Node.receivedAll ops n1 dh1 rest

/-- Function `SaveKey(key, key_file)`: the key file afterwards. -/
def SaveKey (key : Key) (key_file : DiskFile) : DiskFile :=
  let key_file := { key_file with log := key_file.log ++ [FileOp.openWrite] }
  if !key_file.writable then
    key_file
  else
    { key_file with
      content := some (key.data.take 20)
      log := key_file.log ++ [FileOp.write (key.data.take 20)] }

/-- Function `LoadKey(key_file, new_key)`: the key returned, the value left in
`new_key` and the key file afterwards.  `r` is the key that
`dht::Key::random()` returns when it is called. -/
def LoadKey (key_file : DiskFile) (r : Key) : Key × Bool × DiskFile :=
  let key_file := { key_file with log := key_file.log ++ [FileOp.openRead] }
  match key_file.content with
  | none => (r, true, SaveKey r key_file)
  | some bytes =>
    let fptr : File := { bytes := bytes, at_eof := false }
    let data := (fptr.read 20).1
    if data.length ≠ 20 then
      (r, true, SaveKey r key_file)
    else
      (Key.ofData data, false, key_file)

/-- Constructor `Node::Node(srv, key_file)`: the node and the key file
afterwards. -/
def Node.ctor (key_file : DiskFile) (r : Key) : Node B × DiskFile :=
  let loaded := LoadKey key_file r
  ({ our_id := loaded.1
     bucket := fun _ => none
     num_receives := 0
     num_entries := 0
     delete_table := loaded.2.1 },
   loaded.2.2)

/-- Method `Node::saveTable(file)`: the table file afterwards. -/
def Node.saveTable (ops : KBucketOps B) (n : Node B) (file : DiskFile) : DiskFile :=
  let file := { file with log := file.log ++ [FileOp.openWrite] }
  if !file.writable then
    file
  else
    let written := (List.finRange 160).foldl
      (fun out i =>
        match n.bucket i with
        | some b => out ++ ops.save b
        | none => out)
      []
    { file with content := some written, log := file.log ++ [FileOp.write written] }

/-- The loop `while (!fptr.eof())` of `Node::loadTable`, run for at most `fuel`
iterations. -/
def Node.loadLoop (ops : KBucketOps B) : Nat → Node B → File → Except Abort (Node B)
  | 0, _, _ => .error .outOfFuel
  | fuel + 1, n, fptr =>
    if fptr.eof then
      .ok n
    else
      let raw := (fptr.read sizeofBucketHeader).1
      let fptr := (fptr.read sizeofBucketHeader).2
      if raw.length ≠ sizeofBucketHeader then
        .ok n
      else
        let hdr := decodeHeader raw
        -- new IPv6 capable format uses the old magic number + 1
        if hdr.magic ≠ (ops.BUCKET_MAGIC_NUMBER + 1) % 2 ^ 32 ∨ hdr.num_entries > ops.K
            ∨ hdr.index > 160 then
          .ok n
        else if hdr.num_entries = 0 then
          Node.loadLoop ops fuel n fptr
        else
          -- if (bucket[hdr.index]) delete bucket[hdr.index];
          match n.readSlot hdr.index with
          | .error e => .error e
          | .ok _ =>
            let loaded := ops.load (ops.create hdr.index) hdr fptr.bytes
            let fptr := (fptr.read loaded.2).2
            match n.writeSlot hdr.index (some loaded.1) with
            | .error e => .error e
            | .ok n1 =>
              Node.loadLoop ops fuel
                { n1 with num_entries :=
                    (n1.num_entries + ops.getNumEntries loaded.1) % 2 ^ NUM_ENTRIES_BITS }
                fptr

/-- Method `Node::loadTable(file)`: the node and the table file afterwards.
Every iteration of the loop that goes on has read a whole header, so one more
iteration than there are bytes is enough fuel. -/
def Node.loadTable (ops : KBucketOps B) (n : Node B) (file : DiskFile) :
    Except Abort (Node B × DiskFile) :=
  if n.delete_table then
    .ok ({ n with delete_table := false },
         { file with content := none, log := file.log ++ [FileOp.delete] })
  else
    let file := { file with log := file.log ++ [FileOp.openRead] }
    match file.content with
    | none => .ok (n, file)
    | some bytes =>
      match Node.loadLoop ops (bytes.length + 1) { n with num_entries := 0 }
          { bytes := bytes, at_eof := false } with
      | .error e => .error e
      | .ok n1 => .ok (n1, file)

/-- Number of entries in slot `i`, an absent bucket holding none. -/
def Node.entriesAt (ops : KBucketOps B) (n : Node B) (i : Fin 160) : Nat :=
  match n.bucket i with
  | some b => ops.getNumEntries b
  | none => 0

/-! ## A list-based bucket

A small bucket against which the interface `KBucketOps` is instantiated in the
examples. -/

/-- Modelled from the spec: a `KBucket` (kbucket.cpp is not part of the
sources) "holds up to K contact entries; each entry pairs a network origin
with a Key". -/
structure ListBucket where
  index : Nat
  entries : List KBucketEntry
  /-- Number of request timeouts recorded against contacts of the bucket. -/
  timeouts : Nat := 0

/-- Bytes of an entry in a table file: the origin as a 32-bit value, then the
20 bytes of the key. -/
def encodeEntry (e : KBucketEntry) : List Nat :=
  u32ToBytes e.origin ++ e.id.data

/-- Size of an encoded entry. -/
def sizeofEntry : Nat := 24

/-- The entry encoded in 24 bytes. -/
def decodeEntry (bs : List Nat) : KBucketEntry where
  origin := bytesToU32 (bs.take 4)
  id := Key.ofData (bs.drop 4)

/-- Bytes of a list of entries. -/
def encodeEntries : List KBucketEntry → List Nat
  | [] => []
  | e :: rest => encodeEntry e ++ encodeEntries rest

/-- Reads up to `count` entries and stops early when the bytes run out. -/
def decodeEntries : Nat → List Nat → List KBucketEntry
  | 0, _ => []
  | count + 1, bs =>
    if bs.length < sizeofEntry then []
    else decodeEntry (bs.take sizeofEntry) :: decodeEntries count (bs.drop sizeofEntry)

/-- Modelled from the spec: the operations of the list-based bucket.  An
insertion is dropped when the bucket is full; a record is a header followed by
the entries; a timeout is claimed when a contact of the bucket has the address;
the bucket offers all its entries to a k-closest search. -/
def listBucketOps (K BUCKET_MAGIC_NUMBER : Nat) : KBucketOps ListBucket where
  K := K
  BUCKET_MAGIC_NUMBER := BUCKET_MAGIC_NUMBER
  create := fun index => { index := index, entries := [] }
  insert := fun b e => if b.entries.length < K then { b with entries := b.entries ++ [e] } else b
  getNumEntries := fun b => b.entries.length
  save := fun b =>
    encodeHeader
      { magic := (BUCKET_MAGIC_NUMBER + 1) % 2 ^ 32
        num_entries := b.entries.length
        index := b.index }
      ++ encodeEntries b.entries
  load := fun b hdr bytes =>
    ({ b with entries := decodeEntries hdr.num_entries bytes }, sizeofEntry * hdr.num_entries)
  onTimeout := fun b addr =>
    if b.entries.any (fun e => e.origin == addr) then (true, { b with timeouts := b.timeouts + 1 })
    else (false, b)
  findKClosestNodes := fun b kns => (b, { entries := kns.entries ++ b.entries })

/-- Example constants: a capacity of 8 and the magic number 0xB0C4B0C4. -/
def exampleOps : KBucketOps ListBucket := listBucketOps 8 0xB0C4B0C4

/-- The key whose bytes are all zero. -/
def zeroKey : Key where
  data := List.replicate 20 0
  size_eq := by simp
  byte_lt := by
    intro v hv
    rw [List.eq_of_mem_replicate hv]
    norm_num

/-- The key whose byte `i` is `v` (reduced to a byte) and whose other bytes are
zero. -/
def byteKey (i v : Nat) : Key :=
  Key.ofData ((List.replicate 20 0).set i v)

/-- The node with slot `i` holding the bucket `b`, everything else as it is. -/
def Node.withSlot (n : Node B) (i : Fin 160) (b : B) : Node B :=
  { n with bucket := Function.update n.bucket i (some b) }

/-- Number of valid contacts among `msgs`: the messages whose id is not the
node's own. -/
def validContacts (our_id : Key) (msgs : List MsgBase) : Nat :=
  (msgs.filter fun m => decide (m.id ≠ our_id)).length

/-- A freshly constructed node whose key file was absent and whose generated
identifier is zero. -/
def exampleNode : Node ListBucket :=
  (Node.ctor { content := none, writable := true, log := [] } zeroKey).1

/-- A message from the node whose identifier is 2^159. -/
def exampleMsg : MsgBase :=
  { id := byteKey 0 0x80, origin := 1, destination := 2 }

/-! ## Records of a table file -/

/-- A record of a table file that declares a slot below 160: the declared
number of entries, the bytes that follow the header, and the bucket that
`KBucket::load` builds from them. -/
structure TableRecord (B : Type) where
  index : Fin 160
  num_entries : Nat
  payload : List Nat
  loaded : B

/-- Header of a record in the current format (magic number + 1). -/
def TableRecord.header (ops : KBucketOps B) (r : TableRecord B) : BucketHeader where
  magic := (ops.BUCKET_MAGIC_NUMBER + 1) % 2 ^ 32
  num_entries := r.num_entries
  index := r.index.val

/-- Bytes of a record: the header, then the entries. -/
def TableRecord.bytes (ops : KBucketOps B) (r : TableRecord B) : List Nat :=
  encodeHeader (r.header ops) ++ r.payload

/-- Bytes of a sequence of records. -/
def tableBytes (ops : KBucketOps B) : List (TableRecord B) → List Nat
  | [] => []
  | r :: rest => r.bytes ops ++ tableBytes ops rest

/-- A record is valid when its declared number of entries is a 32-bit value
not above `K`, when a record without entries is a bare header, and when the
bucket collaborator, asked to load a record with entries, reads the bytes of
the record, whatever follows them in the file, into the bucket `loaded`. -/
def TableRecord.Valid (ops : KBucketOps B) (r : TableRecord B) : Prop :=
  r.num_entries ≤ ops.K ∧ r.num_entries < 2 ^ 32 ∧
  (r.num_entries = 0 → r.payload = []) ∧
  (0 < r.num_entries → ∀ rest : List Nat,
    ops.load (ops.create r.index.val) (r.header ops) (r.payload ++ rest)
      = (r.loaded, r.payload.length))

/-- The bytes at which the specification has loading stop: fewer bytes than a
header, a magic number other than `BUCKET_MAGIC_NUMBER + 1`, or more than `K`
declared entries. -/
def BadHeader (ops : KBucketOps B) (bytes : List Nat) : Prop :=
  bytes.length < sizeofBucketHeader ∨
  (decodeHeader (bytes.take sizeofBucketHeader)).magic ≠ (ops.BUCKET_MAGIC_NUMBER + 1) % 2 ^ 32 ∨
  (decodeHeader (bytes.take sizeofBucketHeader)).num_entries > ops.K

/-- What the specification has one valid record do to the table: a header
that declares no entry is skipped; otherwise the bucket at the declared index
is replaced by the loaded one and its entry count is added to `num_entries`. -/
def Node.applyRecord (ops : KBucketOps B) (n : Node B) (r : TableRecord B) : Node B :=
  if r.num_entries = 0 then n
  else
    { n with
      bucket := Function.update n.bucket r.index (some r.loaded)
      num_entries := (n.num_entries + ops.getNumEntries r.loaded) % 2 ^ NUM_ENTRIES_BITS }

/-- The records of a file applied to the table in the order of the file. -/
def Node.applyRecords (ops : KBucketOps B) (n : Node B) : List (TableRecord B) → Node B
  | [] => n
  | r :: rest => Node.applyRecords ops (n.applyRecord ops r) rest

/-- The record that the bucket `b` of slot `i` writes, read off the bytes that
`KBucket::save` produces: what follows the first `sizeof(BucketHeader)` bytes
is the payload. -/
def recordOf (ops : KBucketOps B) (i : Fin 160) (b : B) : TableRecord B where
  index := i
  num_entries := ops.getNumEntries b
  payload := (ops.save b).drop sizeofBucketHeader
  loaded := (ops.load (ops.create i.val)
    { magic := (ops.BUCKET_MAGIC_NUMBER + 1) % 2 ^ 32
      num_entries := ops.getNumEntries b
      index := i.val }
    ((ops.save b).drop sizeofBucketHeader)).1

/-- The bucket `b` of slot `i` writes a record of the form header
(`BUCKET_MAGIC_NUMBER + 1`, entry count, own index) followed by its entries,
the record is valid, and loading it yields a bucket with as many entries. -/
def SavesRecord (ops : KBucketOps B) (i : Fin 160) (b : B) : Prop :=
  ops.save b = (recordOf ops i b).bytes ops ∧
  (recordOf ops i b).Valid ops ∧
  (0 < ops.getNumEntries b →
    ops.getNumEntries (recordOf ops i b).loaded = ops.getNumEntries b)

/-- A node that found its identifier in the key file, so that its identity is
not fresh; its table is empty. -/
def restartedNode : Node ListBucket :=
  (Node.ctor { content := some (List.replicate 20 7), writable := true, log := [] } zeroKey).1

/-- The records that `saveTable` writes for the slots `slots`, in that order:
one for every present bucket. -/
def savedRecords (ops : KBucketOps B) (n : Node B) (slots : List (Fin 160)) :
    List (TableRecord B) :=
  slots.filterMap fun i => (n.bucket i).map (recordOf ops i)

/-- A bucket of slot 5 that holds three contacts. -/
def exampleBucket5 : ListBucket where
  index := 5
  entries :=
    [{ origin := 1, id := byteKey 19 0x20 }, { origin := 2, id := byteKey 19 0x21 },
     { origin := 3, id := byteKey 19 0x3F }]

/-- A bucket of slot 140 that holds one contact. -/
def exampleBucket140 : ListBucket where
  index := 140
  entries := [{ origin := 4, id := byteKey 2 0x10 }]

/-- A table whose slot 5 holds three entries and whose slot 140 holds one, all
other slots being absent. -/
def exampleTable : Node ListBucket where
  our_id := zeroKey
  bucket := fun i =>
    if i.val = 5 then some exampleBucket5
    else if i.val = 140 then some exampleBucket140
    else none
  num_receives := 4
  num_entries := 4
  delete_table := false

/-- A key file that holds the identifier zero. -/
def exampleKeyFile : DiskFile where
  content := some zeroKey.data
  writable := true
  log := []

/-- A table file that does not exist yet and can be written. -/
def exampleTableFile : DiskFile where
  content := none
  writable := true
  log := []

/-! ## Timeout and k-closest dispatch -/

/-- The loop of `Node::onTimeout` over the slots that are still to be visited.
Besides the node it returns the slots whose bucket was asked, in the order of
the calls. -/
def Node.onTimeoutLoop (ops : KBucketOps B) (addr : Nat) :
    List (Fin 160) → Node B → List (Fin 160) → Node B × List (Fin 160)
  | [], n, asked => (n, asked)
  | i :: rest, n, asked =>
    match n.bucket i with
    | none => Node.onTimeoutLoop ops addr rest n asked
    | some b =>
      -- bucket[i]->onTimeout(msg->getDestination()) works on the bucket in place
      if (ops.onTimeout b addr).1 then
        (n.withSlot i (ops.onTimeout b addr).2, asked ++ [i])
      else
        Node.onTimeoutLoop ops addr rest (n.withSlot i (ops.onTimeout b addr).2) (asked ++ [i])

/-- Method `Node::onTimeout(msg)`: the node afterwards and the slots whose bucket
was asked, in the order of the calls. -/
def Node.onTimeout (ops : KBucketOps B) (n : Node B) (msg : MsgBase) :
    Node B × List (Fin 160) :=
  Node.onTimeoutLoop ops msg.destination (List.finRange 160) n []

/-- Whether slot `j` holds a bucket that claims the address `addr` on a
timeout. -/
def Node.claims (ops : KBucketOps B) (n : Node B) (addr : Nat) (j : Fin 160) : Bool :=
  match n.bucket j with
  | some c => (ops.onTimeout c addr).1
  | none => false

/-- The loop of `Node::findKClosestNodes` over the slots that are still to be
visited.  Besides the node and the accumulator it returns the slots whose
bucket was delegated to, in the order of the calls. -/
def Node.findKClosestLoop (ops : KBucketOps B) :
    List (Fin 160) → Node B → KClosestNodesSearch → List (Fin 160) →
      Node B × KClosestNodesSearch × List (Fin 160)
  | [], n, kns, called => (n, kns, called)
  | i :: rest, n, kns, called =>
    match n.bucket i with
    | none => Node.findKClosestLoop ops rest n kns called
    | some b =>
      Node.findKClosestLoop ops rest (n.withSlot i (ops.findKClosestNodes b kns).1)
        (ops.findKClosestNodes b kns).2 (called ++ [i])

/-- Method `Node::findKClosestNodes(kns)`: the node and the accumulator
afterwards and the slots whose bucket was delegated to, in the order of the
calls. -/
def Node.findKClosestNodes (ops : KBucketOps B) (n : Node B) (kns : KClosestNodesSearch) :
    Node B × KClosestNodesSearch × List (Fin 160) :=
  Node.findKClosestLoop ops (List.finRange 160) n kns []

/-- The sum of `getNumEntries` over all present buckets, as a number without
bound. -/
def Node.totalEntries (ops : KBucketOps B) (n : Node B) : Nat :=
  ((List.finRange 160).map (n.entriesAt ops)).sum

/-- Bit `q` of a key, counting from the most significant bit of byte 0. -/
def Key.bit (k : Key) (q : Nat) : Bool :=
  k.toNat.testBit (159 - q)

/-- A bucket of slot 10 with one contact, whose address is 77. -/
def exampleBucket10 : ListBucket where
  index := 10
  entries := [{ origin := 77, id := byteKey 18 0x04 }]

/-- A table with buckets in slots 5, 10 and 140; only the bucket of slot 10
has a contact with the address 77. -/
def exampleTimeoutTable : Node ListBucket where
  our_id := zeroKey
  bucket := fun i =>
    if i.val = 5 then some exampleBucket5
    else if i.val = 10 then some exampleBucket10
    else if i.val = 140 then some exampleBucket140
    else none
  num_receives := 5
  num_entries := 5
  delete_table := false

/-- A message to the address 77 that timed out. -/
def exampleTimeout : MsgBase :=
  { id := byteKey 18 0x04, origin := 1, destination := 77 }

/-- A bucket of slot 7 without contacts. -/
def exampleBucket7 : ListBucket where
  index := 7
  entries := []

/-- The record that `exampleBucket5` writes. -/
def exampleRecord5 : TableRecord ListBucket := recordOf exampleOps 5 exampleBucket5

/-- The record that `exampleBucket7` writes: a header declaring no entry. -/
def exampleRecord7 : TableRecord ListBucket := recordOf exampleOps 7 exampleBucket7

/-- A table file with the record of slot 7, which declares no entry, followed
by the record of slot 5. -/
def exampleFileWithEmptyHeader : DiskFile where
  content := some (tableBytes exampleOps ([] ++ exampleRecord7 :: [exampleRecord5]) ++ [])
  writable := true
  log := []

/-- A table file with the record of slot 5. -/
def exampleFile5 : DiskFile where
  content := some (tableBytes exampleOps [exampleRecord5] ++ [])
  writable := true
  log := []

/-- A table file in which two records declare slot 5. -/
def exampleFileTwice5 : DiskFile where
  content := some (tableBytes exampleOps [exampleRecord5, exampleRecord5] ++ [])
  writable := true
  log := []

/-- An empty table file. -/
def exampleEmptyFile : DiskFile where
  content := some []
  writable := true
  log := []

/-- The table that `restartedNode` holds after it has loaded
`exampleFileTwice5`, the file in which two records declare slot 5. -/
def driftedTable : Node ListBucket :=
  Node.applyRecords exampleOps { restartedNode with num_entries := 0 }
    [exampleRecord5, exampleRecord5]

/-- The key file from which `restartedNode` read its identifier. -/
def exampleKeyFile7 : DiskFile where
  content := some (List.replicate 20 7)
  writable := true
  log := []

/-! ## Keys as numbers -/

/-- Two keys with the same bytes are the same key. -/
theorem Key.ext_data {a b : Key} (h : a.data = b.data) : a = b := by
  cases a; cases b; cases h; rfl

theorem Key.toNat_eq (k : Key) : k.toNat = bytesToNat k.data := rfl

theorem pow256 (n : Nat) : 256 ^ n = 2 ^ (8 * n) := by
  rw [pow_mul]; norm_num

theorem bytesToNat_lt : ∀ (l : List Nat), (∀ b ∈ l, b < 256) →
    bytesToNat l < 256 ^ l.length
  | [], _ => by simp [bytesToNat]
  | b :: rest, h => by
    have hb : b < 256 := h b (List.mem_cons_self _ _)
    have hr := bytesToNat_lt rest (fun x hx => h x (List.mem_cons_of_mem _ hx))
    simp only [bytesToNat, List.length_cons, pow_succ]
    nlinarith

theorem xor_split (k x y p q : Nat) (hp : p < 2 ^ k) (hq : q < 2 ^ k) :
    (x * 2 ^ k + p) ^^^ (y * 2 ^ k + q) = (x ^^^ y) * 2 ^ k + (p ^^^ q) := by
  have hpq : p ^^^ q < 2 ^ k := Nat.xor_lt_two_pow hp hq
  apply Nat.eq_of_testBit_eq
  intro j
  rw [Nat.testBit_xor, Nat.mul_comm x, Nat.mul_comm y, Nat.mul_comm (x ^^^ y),
    Nat.testBit_mul_pow_two_add _ hp, Nat.testBit_mul_pow_two_add _ hq,
    Nat.testBit_mul_pow_two_add _ hpq]
  by_cases hj : j < k <;> simp [hj, Nat.testBit_xor]

theorem bytesToNat_xor : ∀ (a b : List Nat), a.length = b.length →
    (∀ x ∈ a, x < 256) → (∀ y ∈ b, y < 256) →
    bytesToNat (List.zipWith (fun x y => x ^^^ y) a b) = bytesToNat a ^^^ bytesToNat b
  | [], [], _, _, _ => by simp [bytesToNat]
  | [], _ :: _, h, _, _ => by simp at h
  | _ :: _, [], h, _, _ => by simp at h
  | x :: xs, y :: ys, h, ha, hb => by
    have hl : xs.length = ys.length := by simpa using h
    have hxs := bytesToNat_lt xs (fun v hv => ha v (List.mem_cons_of_mem _ hv))
    have hys := bytesToNat_lt ys (fun v hv => hb v (List.mem_cons_of_mem _ hv))
    have ih := bytesToNat_xor xs ys hl (fun v hv => ha v (List.mem_cons_of_mem _ hv))
      (fun v hv => hb v (List.mem_cons_of_mem _ hv))
    simp only [List.zipWith_cons_cons, bytesToNat, List.length_zipWith, ih]
    rw [← hl, Nat.min_self, pow256] at *
    rw [xor_split _ _ _ _ _ hxs (hl ▸ hys)]

/-- The distance of two keys, read as a number, is the XOR of the two keys
read as numbers. -/
theorem Key.toNat_distance (a b : Key) :
    (Key.distance a b).toNat = a.toNat ^^^ b.toNat :=
  bytesToNat_xor a.data b.data (by rw [a.size_eq, b.size_eq]) a.byte_lt b.byte_lt

theorem bytesToNat_inj : ∀ (a b : List Nat), a.length = b.length →
    (∀ x ∈ a, x < 256) → (∀ y ∈ b, y < 256) → bytesToNat a = bytesToNat b → a = b
  | [], [], _, _, _, _ => rfl
  | [], _ :: _, h, _, _, _ => by simp at h
  | _ :: _, [], h, _, _, _ => by simp at h
  | x :: xs, y :: ys, h, ha, hb, he => by
    have hl : xs.length = ys.length := by simpa using h
    have hxs := bytesToNat_lt xs (fun v hv => ha v (List.mem_cons_of_mem _ hv))
    have hys := bytesToNat_lt ys (fun v hv => hb v (List.mem_cons_of_mem _ hv))
    simp only [bytesToNat] at he
    rw [← hl] at he hys
    have hpos : 0 < 256 ^ xs.length := by positivity
    have hdiv : ∀ u t : Nat, t < 256 ^ xs.length → (u * 256 ^ xs.length + t) / 256 ^ xs.length = u := by
      intro u t ht
      rw [Nat.add_comm, Nat.add_mul_div_right _ _ hpos, Nat.div_eq_of_lt ht, Nat.zero_add]
    have hxy : x = y := by
      rw [← hdiv x _ hxs, ← hdiv y _ hys, he]
    subst hxy
    have hrest : bytesToNat xs = bytesToNat ys := by omega
    rw [bytesToNat_inj xs ys hl (fun v hv => ha v (List.mem_cons_of_mem _ hv))
      (fun v hv => hb v (List.mem_cons_of_mem _ hv)) hrest]

/-- Keys are equal exactly when they are equal as numbers. -/
theorem Key.toNat_inj {a b : Key} : a.toNat = b.toNat ↔ a = b :=
  ⟨fun h => Key.ext_data (bytesToNat_inj a.data b.data (by rw [a.size_eq, b.size_eq])
    a.byte_lt b.byte_lt h), fun h => h ▸ rfl⟩

theorem Key.toNat_lt (a : Key) : a.toNat < 2 ^ 160 := by
  have h := bytesToNat_lt a.data a.byte_lt
  rw [a.size_eq, pow256] at h
  exact h

/-- The distance is zero exactly between a key and itself. -/
theorem Key.distance_eq_zero {a b : Key} : (Key.distance a b).toNat = 0 ↔ a = b := by
  rw [Key.toNat_distance, Nat.xor_eq_zero, Key.toNat_inj]

/-! ## The bucket index -/

set_option maxRecDepth 100000 in
/-- On a non-zero byte in the last position the inner loop returns the position
of the byte's most significant set bit. -/
theorem findBucketBit_byte : ∀ b, b < 256 → 0 < b →
    ∃ k, k < 8 ∧ findBucketBit b 19 8 = some k ∧ 2 ^ k ≤ b ∧ b < 2 ^ (k + 1) := by
  decide

theorem findBucketBit_shift (b i : Nat) (hi : i ≤ 19) : ∀ n, n ≤ 8 →
    findBucketBit b i n = (findBucketBit b 19 n).map (fun k => (19 - i) * 8 + k) := by
  intro n
  induction n with
  | zero => intro _; simp [findBucketBit]
  | succ n ih =>
    intro hn
    simp only [findBucketBit]
    split
    · simp only [Option.map_some', Option.some.injEq]
      omega
    · exact ih (by omega)

/-- What the scan returns on the bytes of a distance from position `i` on. -/
theorem findBucketScan_spec : ∀ (l : List Nat) (i : Nat), (∀ b ∈ l, b < 256) →
    i + l.length = 20 →
    (bytesToNat l = 0 ∧ findBucketScan l i = 0xFF) ∨
    (2 ^ findBucketScan l i ≤ bytesToNat l ∧ bytesToNat l < 2 ^ (findBucketScan l i + 1)
      ∧ findBucketScan l i < 8 * l.length) := by
  intro l
  induction l with
  | nil => intro i _ _; exact Or.inl ⟨rfl, rfl⟩
  | cons b rest ihr =>
    intro i h hlen
    have hb : b < 256 := h b (List.mem_cons_self _ _)
    have hrest : ∀ x ∈ rest, x < 256 := fun x hx => h x (List.mem_cons_of_mem _ hx)
    have hlen2 : (i + 1) + rest.length = 20 := by simp at hlen; omega
    have ih := ihr (i + 1) hrest hlen2
    by_cases hb0 : b = 0
    · subst hb0
      simp only [findBucketScan, bytesToNat, if_true, Nat.zero_mul, Nat.zero_add,
        List.length_cons]
      rcases ih with ih | ⟨h1, h2, h3⟩
      · exact Or.inl ih
      · exact Or.inr ⟨h1, h2, by omega⟩
    · obtain ⟨k, hk8, hk, hlo, hhi⟩ := findBucketBit_byte b hb (Nat.pos_of_ne_zero hb0)
      have hscan : findBucketScan (b :: rest) i = (19 - i) * 8 + k := by
        simp only [findBucketScan, if_neg hb0, findBucketBit_shift b i (by omega) 8 (le_refl _),
          hk, Option.map_some']
      have hi : 19 - i = rest.length := by omega
      have hr := bytesToNat_lt rest hrest
      right
      rw [hscan, hi]
      simp only [bytesToNat, List.length_cons]
      have hp : (2 : Nat) ^ (rest.length * 8 + k) = 2 ^ k * 256 ^ rest.length := by
        rw [pow_add, pow256, Nat.mul_comm 8, Nat.mul_comm]
      have hp1 : (2 : Nat) ^ (rest.length * 8 + k + 1) = 2 ^ (k + 1) * 256 ^ rest.length := by
        rw [Nat.add_assoc, pow_add, pow256, Nat.mul_comm 8, Nat.mul_comm]
      rw [hp, hp1]
      have hpos : 0 < 256 ^ rest.length := by positivity
      refine ⟨?_, ?_, by omega⟩
      · calc 2 ^ k * 256 ^ rest.length ≤ b * 256 ^ rest.length :=
              Nat.mul_le_mul_right _ hlo
          _ ≤ b * 256 ^ rest.length + bytesToNat rest := Nat.le_add_right _ _
      · calc b * 256 ^ rest.length + bytesToNat rest
              < b * 256 ^ rest.length + 256 ^ rest.length := by omega
          _ = (b + 1) * 256 ^ rest.length := by ring
          _ ≤ 2 ^ (k + 1) * 256 ^ rest.length := Nat.mul_le_mul_right _ hhi

/-- The scan of `findBucket` returns 0xFF on a zero distance and otherwise the
position, counted from the least significant bit, of the distance's most
significant set bit. -/
theorem findBucket_spec (our_id id : Key) :
    (id = our_id ∧ findBucket our_id id = 0xFF) ∨
    (id ≠ our_id ∧ findBucket our_id id < 160
      ∧ 2 ^ findBucket our_id id ≤ (Key.distance id our_id).toNat
      ∧ (Key.distance id our_id).toNat < 2 ^ (findBucket our_id id + 1)) := by
  have h := findBucketScan_spec (Key.distance id our_id).data 0
    (Key.distance id our_id).byte_lt (by rw [(Key.distance id our_id).size_eq])
  rw [(Key.distance id our_id).size_eq] at h
  rcases h with ⟨h0, h1⟩ | ⟨h1, h2, h3⟩
  · exact Or.inl ⟨Key.distance_eq_zero.mp h0, h1⟩
  · refine Or.inr ⟨?_, h3, h1, h2⟩
    intro he
    have hz : (Key.distance id our_id).toNat = 0 := Key.distance_eq_zero.mpr he
    have hpos : 0 < 2 ^ findBucketScan (Key.distance id our_id).data 0 := by positivity
    rw [Key.toNat_eq] at hz
    omega

theorem findBucket_lt_iff (our_id id : Key) : findBucket our_id id < 160 ↔ id ≠ our_id := by
  rcases findBucket_spec our_id id with ⟨h1, h2⟩ | ⟨h1, h2, _⟩
  · rw [h2]; simp [h1]
  · simp [h1, h2]

theorem findBucket_self (our_id : Key) : findBucket our_id our_id = 0xFF := by
  rcases findBucket_spec our_id our_id with ⟨_, h2⟩ | ⟨h1, _⟩
  · exact h2
  · exact absurd rfl h1

/-! ## Receiving a contact -/

/-- A self-observation leaves the node and the engine as they are. -/
theorem Node.received_self (ops : KBucketOps B) (n : Node B) (dh_table : DHT) (msg : MsgBase)
    (h : msg.id = n.our_id) : n.received ops dh_table msg = .ok (n, dh_table) := by
  simp [Node.received, h, findBucket_self]

/-- The table after a contact that is not the node itself. -/
theorem Node.received_other (ops : KBucketOps B) (n : Node B) (dh_table : DHT) (msg : MsgBase)
    (h : findBucket n.our_id msg.id < 160) :
    n.received ops dh_table msg = .ok
      ({ n.withSlot ⟨findBucket n.our_id msg.id, h⟩
            (ops.insert ((n.bucket ⟨findBucket n.our_id msg.id, h⟩).getD
              (ops.create (findBucket n.our_id msg.id))) { origin := msg.origin, id := msg.id })
          with
          num_receives := (n.num_receives + 1) % 2 ^ NUM_RECEIVES_BITS
          num_entries := Node.countEntries ops
            (n.withSlot ⟨findBucket n.our_id msg.id, h⟩
              (ops.insert ((n.bucket ⟨findBucket n.our_id msg.id, h⟩).getD
                (ops.create (findBucket n.our_id msg.id))) { origin := msg.origin, id := msg.id })) },
       if (n.num_receives + 1) % 2 ^ NUM_RECEIVES_BITS = 3 then dh_table.findOwnNode
       else dh_table) := by
  unfold Node.received
  simp only [ge_iff_le, Nat.not_le.mpr h, if_false, Node.readSlot, Node.writeSlot, dif_pos h]
  cases hb : n.bucket ⟨findBucket n.our_id msg.id, h⟩ with
  | none =>
    simp [Node.countEntries, Node.withSlot, Function.update_same]
  | some kb =>
    simp [Node.countEntries, Node.withSlot, Function.update_same, hb]

theorem testBit_of_pow_le_lt {v k : Nat} (h1 : 2 ^ k ≤ v) (h2 : v < 2 ^ (k + 1)) :
    v.testBit k = true := by
  rw [Nat.testBit_to_div_mod]
  have hpos : 0 < 2 ^ k := by positivity
  have hdiv : v / 2 ^ k = 1 := by
    apply Nat.div_eq_of_lt_le
    · simpa using h1
    · rw [pow_succ] at h2; omega
  simp [hdiv]

/-! ## Claims on the bucket index -/

/-- C1, as amended: for every local id A and every key B different from A,
`findBucket(B)` on a node whose `our_id` is A is the position p (least
significant bit of the 160-bit big-endian value = 0) of the most significant
set bit of A XOR B, not 159 minus p: bit `findBucket(B)` of A XOR B is set, no
higher bit is, and the returned index i satisfies
2^i <= (A XOR B) < 2^(i+1). -/
theorem findBucket_most_significant_bit (A B : Key) (h : B ≠ A) :
    findBucket A B < 160 ∧
    (A.toNat ^^^ B.toNat).testBit (findBucket A B) = true ∧
    (∀ q, findBucket A B < q → (A.toNat ^^^ B.toNat).testBit q = false) ∧
    2 ^ findBucket A B ≤ A.toNat ^^^ B.toNat ∧
    A.toNat ^^^ B.toNat < 2 ^ (findBucket A B + 1) := by
  rcases findBucket_spec A B with ⟨h1, _⟩ | ⟨_, h2, h3, h4⟩
  · exact absurd h1 h
  · rw [Key.toNat_distance, Nat.xor_comm] at h3 h4
    refine ⟨h2, testBit_of_pow_le_lt h3 h4, ?_, h3, h4⟩
    intro q hq
    apply Nat.testBit_lt_two_pow
    calc A.toNat ^^^ B.toNat < 2 ^ (findBucket A B + 1) := h4
      _ ≤ 2 ^ q := Nat.pow_le_pow_right (by norm_num) hq

/-- C1, witness: the amended statement at local id 0 and the key whose only
set bit is the most significant one. -/
theorem findBucket_most_significant_bit_witness :
    byteKey 0 0x80 ≠ zeroKey ∧
    (findBucket zeroKey (byteKey 0 0x80) < 160 ∧
    (zeroKey.toNat ^^^ (byteKey 0 0x80).toNat).testBit (findBucket zeroKey (byteKey 0 0x80)) = true ∧
    (∀ q, findBucket zeroKey (byteKey 0 0x80) < q →
      (zeroKey.toNat ^^^ (byteKey 0 0x80).toNat).testBit q = false) ∧
    2 ^ findBucket zeroKey (byteKey 0 0x80) ≤ zeroKey.toNat ^^^ (byteKey 0 0x80).toNat ∧
    zeroKey.toNat ^^^ (byteKey 0 0x80).toNat < 2 ^ (findBucket zeroKey (byteKey 0 0x80) + 1)) :=
  ⟨by decide, findBucket_most_significant_bit zeroKey (byteKey 0 0x80) (by decide)⟩

/-- C1, counterexample: with local id 0 and the key 2^159 the most significant
set bit of A XOR B is at position p = 159, so the claim asks for index
159 - 159 = 0 and for 2^(159-i) <= A XOR B < 2^(160-i); `findBucket` returns
159 and the bounds fail. -/
theorem findBucket_not_159_minus_msb :
    byteKey 0 0x80 ≠ zeroKey ∧
    2 ^ 159 ≤ zeroKey.toNat ^^^ (byteKey 0 0x80).toNat ∧
    zeroKey.toNat ^^^ (byteKey 0 0x80).toNat < 2 ^ (159 + 1) ∧
    findBucket zeroKey (byteKey 0 0x80) ≠ 159 - 159 ∧
    ¬ (2 ^ (159 - findBucket zeroKey (byteKey 0 0x80)) ≤ zeroKey.toNat ^^^ (byteKey 0 0x80).toNat ∧
       zeroKey.toNat ^^^ (byteKey 0 0x80).toNat < 2 ^ (160 - findBucket zeroKey (byteKey 0 0x80))) := by
  decide

/-- Evaluation of the refresh-key synthesis on the indices that the
specification names: with local id 0 and the random key 0, `findBucket` puts
the key made for bucket 0 in bucket 159, the one for bucket 79 in bucket 80 and
the one for bucket 159 in bucket 0. -/
theorem RandomKeyInBucket_other_bucket :
    findBucket zeroKey (RandomKeyInBucket 0 zeroKey zeroKey) = 159 ∧
    findBucket zeroKey (RandomKeyInBucket 79 zeroKey zeroKey) = 80 ∧
    findBucket zeroKey (RandomKeyInBucket 159 zeroKey zeroKey) = 0 := by
  decide

/-- C3: `findBucket(id)` returns an out-of-range value (at least 160, namely
0xFF) if and only if `id` equals `our_id`; for every other id it returns an index
below 160, and `received` never indexes the 160 slots out of range: it always
returns normally. -/
theorem findBucket_sentinel_iff_self (ops : KBucketOps B) (n : Node B) (dh_table : DHT)
    (msg : MsgBase) (id : Key) :
    (findBucket n.our_id id ≥ 160 ↔ id = n.our_id) ∧
    (findBucket n.our_id id = 0xFF ↔ id = n.our_id) ∧
    (id ≠ n.our_id ↔ findBucket n.our_id id < 160) ∧
    (∃ r, n.received ops dh_table msg = .ok r) ∧
    (∀ i, n.received ops dh_table msg ≠ .error (.outOfBounds i)) := by
  have hlt := findBucket_lt_iff n.our_id id
  have hok : ∃ r, n.received ops dh_table msg = .ok r := by
    by_cases hm : findBucket n.our_id msg.id < 160
    · exact ⟨_, Node.received_other ops n dh_table msg hm⟩
    · have : msg.id = n.our_id := by
        by_contra hne
        exact hm ((findBucket_lt_iff _ _).mpr hne)
      exact ⟨_, Node.received_self ops n dh_table msg this⟩
  refine ⟨?_, ?_, hlt.symm, hok, ?_⟩
  · constructor
    · intro hge
      by_contra hne
      have := hlt.mpr hne
      omega
    · intro he
      rw [he, findBucket_self]
      norm_num
  · constructor
    · intro h255
      by_contra hne
      have := hlt.mpr hne
      omega
    · intro he
      rw [he, findBucket_self]
  · intro i hi
    obtain ⟨r, hr⟩ := hok
    rw [hr] at hi
    cases hi

/-- C4: for every table state and every message whose id differs from
`our_id`, `received` inserts the contact (origin, id) into the bucket at slot
`findBucket(id)`, creating that bucket with that index if the slot was absent,
and leaves every other one of the 160 slots unchanged. -/
theorem received_inserts_in_one_slot (ops : KBucketOps B) (n : Node B) (dh_table : DHT)
    (msg : MsgBase) (h : msg.id ≠ n.our_id) :
    ∃ (hi : findBucket n.our_id msg.id < 160) (n1 : Node B) (dh1 : DHT),
      n.received ops dh_table msg = .ok (n1, dh1) ∧
      n1.bucket ⟨findBucket n.our_id msg.id, hi⟩ =
        some (ops.insert
          (match n.bucket ⟨findBucket n.our_id msg.id, hi⟩ with
            | some kb => kb
            | none => ops.create (findBucket n.our_id msg.id))
          { origin := msg.origin, id := msg.id }) ∧
      ∀ j : Fin 160, j ≠ ⟨findBucket n.our_id msg.id, hi⟩ → n1.bucket j = n.bucket j := by
  have hi : findBucket n.our_id msg.id < 160 := (findBucket_lt_iff _ _).mpr h
  refine ⟨hi, _, _, Node.received_other ops n dh_table msg hi, ?_, ?_⟩
  · simp only [Node.withSlot, Function.update_same]
    cases n.bucket ⟨findBucket n.our_id msg.id, hi⟩ <;> rfl
  · intro j hj
    simp only [Node.withSlot, Function.update_noteq hj]

/-- C4, witness: the first contact of a fresh table. -/
theorem received_inserts_in_one_slot_witness :
    exampleMsg.id ≠ exampleNode.our_id ∧
    ∃ (hi : findBucket exampleNode.our_id exampleMsg.id < 160) (n1 : Node ListBucket) (dh1 : DHT),
      exampleNode.received exampleOps { findOwnNodeCalls := 0 } exampleMsg = .ok (n1, dh1) ∧
      n1.bucket ⟨findBucket exampleNode.our_id exampleMsg.id, hi⟩ =
        some (exampleOps.insert
          (match exampleNode.bucket ⟨findBucket exampleNode.our_id exampleMsg.id, hi⟩ with
            | some kb => kb
            | none => exampleOps.create (findBucket exampleNode.our_id exampleMsg.id))
          { origin := exampleMsg.origin, id := exampleMsg.id }) ∧
      ∀ j : Fin 160, j ≠ ⟨findBucket exampleNode.our_id exampleMsg.id, hi⟩ →
        n1.bucket j = exampleNode.bucket j :=
  ⟨by decide, received_inserts_in_one_slot exampleOps exampleNode { findOwnNodeCalls := 0 }
    exampleMsg (by decide)⟩

/-! ## The bootstrap trigger -/

/-- What one call of `received` does to the identifier, to the counter of
receives and to the engine. -/
theorem Node.received_counters (ops : KBucketOps B) (n : Node B) (dh_table : DHT)
    (msg : MsgBase) :
    ∃ n1 dh1, n.received ops dh_table msg = .ok (n1, dh1) ∧ n1.our_id = n.our_id ∧
      n1.delete_table = n.delete_table ∧
      (msg.id = n.our_id → n1.num_receives = n.num_receives ∧ dh1 = dh_table) ∧
      (msg.id ≠ n.our_id →
        n1.num_receives = (n.num_receives + 1) % 2 ^ NUM_RECEIVES_BITS ∧
        dh1 = if (n.num_receives + 1) % 2 ^ NUM_RECEIVES_BITS = 3 then dh_table.findOwnNode
          else dh_table) := by
  by_cases hm : msg.id = n.our_id
  · exact ⟨n, dh_table, Node.received_self ops n dh_table msg hm, rfl, rfl,
      fun _ => ⟨rfl, rfl⟩, fun h => absurd hm h⟩
  · have hi := (findBucket_lt_iff _ _).mpr hm
    exact ⟨_, _, Node.received_other ops n dh_table msg hi, rfl, rfl,
      fun h => absurd h hm, fun _ => ⟨rfl, rfl⟩⟩

theorem validContacts_cons (our_id : Key) (m : MsgBase) (rest : List MsgBase) :
    validContacts our_id (m :: rest) =
      (if m.id = our_id then 0 else 1) + validContacts our_id rest := by
  unfold validContacts
  by_cases h : m.id = our_id
  · simp [List.filter_cons, h]
  · simp [List.filter_cons, h]; omega

theorem validContacts_append (our_id : Key) (a b : List MsgBase) :
    validContacts our_id (a ++ b) = validContacts our_id a + validContacts our_id b := by
  simp [validContacts, List.filter_append]

/-- After a sequence of calls the counter of receives is the number of valid
contacts, reduced to the width of the counter. -/
theorem Node.receivedAll_counter (ops : KBucketOps B) (msgs : List MsgBase) :
    ∀ (n : Node B) (dh_table : DHT), n.num_receives < 2 ^ NUM_RECEIVES_BITS →
    ∃ n1 dh1, n.receivedAll ops dh_table msgs = .ok (n1, dh1) ∧ n1.our_id = n.our_id ∧
      n1.num_receives =
        (n.num_receives + validContacts n.our_id msgs) % 2 ^ NUM_RECEIVES_BITS := by
  induction msgs with
  | nil =>
    intro n dh_table hn
    exact ⟨n, dh_table, rfl, rfl, by simp [validContacts, Nat.mod_eq_of_lt hn]⟩
  | cons m rest ih =>
    intro n dh_table hn
    obtain ⟨n1, dh1, h1, hid, _, hself, hother⟩ := Node.received_counters ops n dh_table m
    have hn1 : n1.num_receives < 2 ^ NUM_RECEIVES_BITS := by
      by_cases hm : m.id = n.our_id
      · rw [(hself hm).1]; exact hn
      · rw [(hother hm).1]; exact Nat.mod_lt _ (by positivity)
    obtain ⟨n2, dh2, h2, hid2, hc2⟩ := ih n1 dh1 hn1
    refine ⟨n2, dh2, ?_, hid2.trans hid, ?_⟩
    · simp only [Node.receivedAll, h1, h2]
    · rw [hc2, hid, validContacts_cons]
      by_cases hm : m.id = n.our_id
      · rw [(hself hm).1]; simp [hm]
      · rw [(hother hm).1]; simp only [hm, if_false]
        rw [Nat.mod_add_mod, Nat.add_assoc]

theorem Node.receivedAll_append (ops : KBucketOps B) (a b : List MsgBase) :
    ∀ (n : Node B) (dh_table : DHT) (n1 : Node B) (dh1 : DHT),
    n.receivedAll ops dh_table a = .ok (n1, dh1) →
    n.receivedAll ops dh_table (a ++ b) = n1.receivedAll ops dh1 b := by
  induction a with
  | nil =>
    intro n dh_table n1 dh1 h
    simp only [Node.receivedAll, Except.ok.injEq, Prod.mk.injEq] at h
    obtain ⟨rfl, rfl⟩ := h
    rfl
  | cons m rest ih =>
    intro n dh_table n1 dh1 h
    simp only [Node.receivedAll, List.cons_append] at h ⊢
    cases hr : n.received ops dh_table m with
    | error e => rw [hr] at h; cases h
    | ok p =>
      obtain ⟨n2, dh2⟩ := p
      rw [hr] at h
      exact ih n2 dh2 n1 dh1 h

theorem Node.ctor_counters (key_file : DiskFile) (r : Key) :
    (Node.ctor (B := B) key_file r).1.num_receives = 0 ∧
    (Node.ctor (B := B) key_file r).1.num_entries = 0 ∧
    ∀ i, (Node.ctor (B := B) key_file r).1.bucket i = none :=
  ⟨rfl, rfl, fun _ => rfl⟩

/-- The lookup requested by the call that follows the calls `before` on a
node whose counter of receives started at zero. -/
theorem Node.received_after (ops : KBucketOps B) (n : Node B) (dh_table : DHT)
    (hn : n.num_receives = 0) (before : List MsgBase) (msg : MsgBase) :
    ∃ n1 dh1 n2 dh2,
      n.receivedAll ops dh_table before = .ok (n1, dh1) ∧
      n1.received ops dh1 msg = .ok (n2, dh2) ∧
      dh2.findOwnNodeCalls = dh1.findOwnNodeCalls +
        (if msg.id ≠ n.our_id ∧
            (validContacts n.our_id before + 1) % 2 ^ NUM_RECEIVES_BITS = 3 then 1 else 0) := by
  obtain ⟨n1, dh1, h1, hid, hc⟩ := Node.receivedAll_counter ops before n dh_table
    (by rw [hn]; positivity)
  obtain ⟨n2, dh2, h2, _, _, hself, hother⟩ := Node.received_counters ops n1 dh1 msg
  refine ⟨n1, dh1, n2, dh2, h1, h2, ?_⟩
  rw [hid] at hself hother
  rw [hn, Nat.zero_add] at hc
  by_cases hm : msg.id = n.our_id
  · rw [(hself hm).2]; simp [hm]
  · rw [(hother hm).2, hc, Nat.mod_add_mod]
    by_cases h3 : (validContacts n.our_id before + 1) % 2 ^ NUM_RECEIVES_BITS = 3
    · simp [hm, h3, DHT.findOwnNode]
    · simp [hm, h3]

/-- C5, as amended: for every sequence of `received` calls on a freshly
constructed table that holds at most 2^64 + 2 valid (non-self) contacts, the
range of the counter `num_receives`, the self-lookup (`findOwnNode`) is
requested exactly once, during the call that delivers the 3rd valid contact;
the 1st, 2nd, 4th and every later call request none. -/
theorem own_lookup_on_third_contact (ops : KBucketOps B) (key_file : DiskFile) (r : Key)
    (dh_table : DHT) (before : List MsgBase) (msg : MsgBase)
    (hrange : validContacts (Node.ctor (B := B) key_file r).1.our_id (before ++ [msg])
      ≤ 2 ^ 64 + 2) :
    ∃ n1 dh1 n2 dh2,
      (Node.ctor (B := B) key_file r).1.receivedAll ops dh_table before = .ok (n1, dh1) ∧
      n1.received ops dh1 msg = .ok (n2, dh2) ∧
      dh2.findOwnNodeCalls = dh1.findOwnNodeCalls +
        (if msg.id ≠ (Node.ctor (B := B) key_file r).1.our_id ∧
            validContacts (Node.ctor (B := B) key_file r).1.our_id before = 2 then 1 else 0) := by
  obtain ⟨n1, dh1, n2, dh2, h1, h2, h3⟩ :=
    Node.received_after ops (Node.ctor (B := B) key_file r).1 dh_table rfl before msg
  refine ⟨n1, dh1, n2, dh2, h1, h2, ?_⟩
  rw [h3]
  by_cases hm : msg.id = (Node.ctor (B := B) key_file r).1.our_id
  · simp [hm]
  · have hv : validContacts (Node.ctor (B := B) key_file r).1.our_id before + 1 ≤ 2 ^ 64 + 2 := by
      rw [validContacts_append, validContacts_cons] at hrange
      simpa [hm, validContacts] using hrange
    have hiff : (validContacts (Node.ctor (B := B) key_file r).1.our_id before + 1)
          % 2 ^ NUM_RECEIVES_BITS = 3 ↔
        validContacts (Node.ctor (B := B) key_file r).1.our_id before = 2 := by
      simp only [NUM_RECEIVES_BITS]
      norm_num at hv ⊢
      omega
    simp only [hiff]

/-- C5, witness: the call that delivers the 3rd valid contact to
`exampleNode`. -/
theorem own_lookup_on_third_contact_witness :
    validContacts (Node.ctor (B := ListBucket) { content := none, writable := true, log := [] }
      zeroKey).1.our_id ([exampleMsg, exampleMsg] ++ [exampleMsg]) ≤ 2 ^ 64 + 2 ∧
    ∃ n1 dh1 n2 dh2,
      (Node.ctor (B := ListBucket) { content := none, writable := true, log := [] }
        zeroKey).1.receivedAll exampleOps { findOwnNodeCalls := 0 } [exampleMsg, exampleMsg]
          = .ok (n1, dh1) ∧
      n1.received exampleOps dh1 exampleMsg = .ok (n2, dh2) ∧
      dh2.findOwnNodeCalls = dh1.findOwnNodeCalls +
        (if exampleMsg.id ≠ (Node.ctor (B := ListBucket)
              { content := none, writable := true, log := [] } zeroKey).1.our_id ∧
            validContacts (Node.ctor (B := ListBucket)
              { content := none, writable := true, log := [] } zeroKey).1.our_id
              [exampleMsg, exampleMsg] = 2 then 1 else 0) :=
  ⟨by decide, own_lookup_on_third_contact exampleOps { content := none, writable := true, log := [] }
    zeroKey { findOwnNodeCalls := 0 } [exampleMsg, exampleMsg] exampleMsg (by decide)⟩

theorem validContacts_replicate (our_id : Key) (m : MsgBase) (h : m.id ≠ our_id) (k : Nat) :
    validContacts our_id (List.replicate k m) = k := by
  induction k with
  | zero => rfl
  | succ k ih => rw [List.replicate_succ, validContacts_cons, ih]; simp [h]; omega

/-- C5, counterexample: on a fresh table the call that delivers valid contact
number 2^64 + 3 requests a self-lookup, although it is later than the 3rd: the
counter `num_receives` has wrapped around and equals 3 again. -/
theorem own_lookup_again_after_wrap :
    ∃ n1 dh1 n2 dh2,
      exampleNode.receivedAll exampleOps { findOwnNodeCalls := 0 }
        (List.replicate (2 ^ 64 + 2) exampleMsg) = .ok (n1, dh1) ∧
      n1.received exampleOps dh1 exampleMsg = .ok (n2, dh2) ∧
      validContacts exampleNode.our_id (List.replicate (2 ^ 64 + 2) exampleMsg ++ [exampleMsg])
        = 2 ^ 64 + 3 ∧
      dh2.findOwnNodeCalls = dh1.findOwnNodeCalls + 1 := by
  have hne : exampleMsg.id ≠ exampleNode.our_id := by decide
  obtain ⟨n1, dh1, n2, dh2, h1, h2, h3⟩ :=
    Node.received_after exampleOps exampleNode { findOwnNodeCalls := 0 } rfl
      (List.replicate (2 ^ 64 + 2) exampleMsg) exampleMsg
  refine ⟨n1, dh1, n2, dh2, h1, h2, ?_, ?_⟩
  · rw [validContacts_append, validContacts_replicate _ _ hne]
    rfl
  · rw [h3, validContacts_replicate _ _ hne]
    simp [hne, NUM_RECEIVES_BITS]

/-! ## Identity and the fresh-identity flag -/

/-- C9: when the node was constructed with a fresh identity (`delete_table`
true), `loadTable` performs no read of the table file: the file is not opened,
the only operation on it is its deletion, and the call returns with every
bucket slot and `num_entries` unchanged, whatever the file contains. -/
theorem loadTable_fresh_identity (ops : KBucketOps B) (n : Node B) (file : DiskFile)
    (h : n.delete_table = true) :
    n.loadTable ops file = .ok
      ({ n with delete_table := false },
       { file with content := none, log := file.log ++ [FileOp.delete] }) ∧
    ∀ n1 file1, n.loadTable ops file = .ok (n1, file1) →
      n1.bucket = n.bucket ∧ n1.num_entries = n.num_entries ∧
      file1.content = none ∧ file1.log = file.log ++ [FileOp.delete] := by
  have hres : n.loadTable ops file = .ok
      ({ n with delete_table := false },
       { file with content := none, log := file.log ++ [FileOp.delete] }) := by
    simp [Node.loadTable, h]
  refine ⟨hres, ?_⟩
  intro n1 file1 h1
  rw [hres] at h1
  simp only [Except.ok.injEq, Prod.mk.injEq] at h1
  obtain ⟨rfl, rfl⟩ := h1
  exact ⟨rfl, rfl, rfl, rfl⟩

/-- C9, witness: a node with a fresh identity and a table file that holds
three bytes. -/
theorem loadTable_fresh_identity_witness :
    exampleNode.delete_table = true ∧
    (exampleNode.loadTable exampleOps { content := some [1, 2, 3], writable := true, log := [] }
      = .ok
      ({ exampleNode with delete_table := false },
       { ({ content := some [1, 2, 3], writable := true, log := [] } : DiskFile) with
         content := none
         log := ({ content := some [1, 2, 3], writable := true, log := [] } : DiskFile).log
           ++ [FileOp.delete] }) ∧
    ∀ n1 file1, exampleNode.loadTable exampleOps
        { content := some [1, 2, 3], writable := true, log := [] } = .ok (n1, file1) →
      n1.bucket = exampleNode.bucket ∧ n1.num_entries = exampleNode.num_entries ∧
      file1.content = none ∧
      file1.log = ({ content := some [1, 2, 3], writable := true, log := [] } : DiskFile).log
        ++ [FileOp.delete]) :=
  ⟨by decide, loadTable_fresh_identity exampleOps exampleNode
    { content := some [1, 2, 3], writable := true, log := [] } (by decide)⟩

theorem Key.ofData_data (bytes : List Nat) (h : 20 ≤ bytes.length) :
    (Key.ofData (bytes.take 20)).data = (bytes.take 20).map (fun b => b % 256) := by
  apply List.ext_getElem
  · simp [Key.ofData]; omega
  · intro i h1 h2
    simp only [Key.ofData, List.length_map, List.length_range] at h1
    have hi : i < (List.take 20 bytes).length := by simp; omega
    simp [Key.ofData, List.getElem?_eq_getElem hi]

/-- C10, as amended: at construction, if the key file opens and a read of 20
bytes returns 20 bytes, `our_id` equals those 20 bytes, the flag
`delete_table` is false and nothing is written; in every other case (the file
cannot be opened, or fewer than 20 bytes are read) `our_id` is the newly
generated random key and the flag is true, and that same key is what is written
to the key file whenever the key file can be opened for writing; when it
cannot, the key file is left as it was. -/
theorem ctor_identity (key_file : DiskFile) (r : Key) :
    (∀ bytes, key_file.content = some bytes → 20 ≤ bytes.length →
      (Node.ctor (B := B) key_file r).1.our_id.data = (bytes.take 20).map (fun b => b % 256) ∧
      (Node.ctor (B := B) key_file r).1.delete_table = false ∧
      (Node.ctor (B := B) key_file r).2.content = key_file.content ∧
      (Node.ctor (B := B) key_file r).2.log = key_file.log ++ [FileOp.openRead]) ∧
    ((key_file.content = none ∨ ∃ bytes, key_file.content = some bytes ∧ bytes.length < 20) →
      (Node.ctor (B := B) key_file r).1.our_id = r ∧
      (Node.ctor (B := B) key_file r).1.delete_table = true ∧
      (key_file.writable = true →
        (Node.ctor (B := B) key_file r).2.content = some r.data ∧
        (Node.ctor (B := B) key_file r).2.log =
          key_file.log ++ [FileOp.openRead, FileOp.openWrite, FileOp.write r.data]) ∧
      (key_file.writable = false →
        (Node.ctor (B := B) key_file r).2.content = key_file.content ∧
        (Node.ctor (B := B) key_file r).2.log =
          key_file.log ++ [FileOp.openRead, FileOp.openWrite])) := by
  have htake : r.data.take 20 = r.data := by
    rw [List.take_of_length_le (by rw [r.size_eq])]
  constructor
  · intro bytes hc hlen
    have hl : (List.take 20 bytes).length = 20 := by simp; omega
    simp only [Node.ctor, LoadKey, hc, File.read, hl, ne_eq, not_true_eq_false, if_false]
    exact ⟨Key.ofData_data bytes hlen, by trivial, by trivial, by trivial⟩
  · intro hcase
    have hload : LoadKey key_file r =
        (r, true, SaveKey r { key_file with log := key_file.log ++ [FileOp.openRead] }) := by
      rcases hcase with hc | ⟨bytes, hc, hlen⟩
      · simp only [LoadKey, hc]
      · have hl : (List.take 20 bytes).length ≠ 20 := by simp; omega
        simp only [LoadKey, hc, File.read, ne_eq, hl, not_false_eq_true, if_true]
    simp only [Node.ctor, hload]
    refine ⟨trivial, trivial, ?_, ?_⟩
    · intro hw
      simp [SaveKey, hw, htake]
    · intro hw
      simp [SaveKey, hw]

/-- C10, counterexample: the key file can neither be opened for reading nor
for writing.  The node gets the generated key and the flag is true, but
nothing is written to the key file: it is as absent as before. -/
theorem ctor_key_not_written :
    (Node.ctor (B := ListBucket) { content := none, writable := false, log := [] }
      zeroKey).1.our_id = zeroKey ∧
    (Node.ctor (B := ListBucket) { content := none, writable := false, log := [] }
      zeroKey).1.delete_table = true ∧
    (Node.ctor (B := ListBucket) { content := none, writable := false, log := [] }
      zeroKey).2.content ≠ some zeroKey.data ∧
    FileOp.write zeroKey.data ∉
      (Node.ctor (B := ListBucket) { content := none, writable := false, log := [] }
        zeroKey).2.log := by
  decide

/-- C10, witness: a key file of 20 bytes, and an absent key file that can be
written. -/
theorem ctor_identity_witness :
    ((Node.ctor (B := ListBucket)
        { content := some (List.replicate 20 7), writable := true, log := [] }
        zeroKey).1.our_id.data = ((List.replicate 20 7).take 20).map (fun b => b % 256) ∧
      (Node.ctor (B := ListBucket)
        { content := some (List.replicate 20 7), writable := true, log := [] }
        zeroKey).1.delete_table = false ∧
      (Node.ctor (B := ListBucket)
        { content := some (List.replicate 20 7), writable := true, log := [] }
        zeroKey).2.content = some (List.replicate 20 7) ∧
      (Node.ctor (B := ListBucket)
        { content := some (List.replicate 20 7), writable := true, log := [] }
        zeroKey).2.log = [] ++ [FileOp.openRead]) ∧
    ((Node.ctor (B := ListBucket) { content := none, writable := true, log := [] }
        zeroKey).1.our_id = zeroKey ∧
      (Node.ctor (B := ListBucket) { content := none, writable := true, log := [] }
        zeroKey).1.delete_table = true ∧
      (Node.ctor (B := ListBucket) { content := none, writable := true, log := [] }
        zeroKey).2.content = some zeroKey.data) :=
  ⟨(ctor_identity (B := ListBucket)
      { content := some (List.replicate 20 7), writable := true, log := [] } zeroKey).1
      (List.replicate 20 7) rfl (by decide),
   ((ctor_identity (B := ListBucket) { content := none, writable := true, log := [] }
      zeroKey).2 (Or.inl rfl)).1,
   ((ctor_identity (B := ListBucket) { content := none, writable := true, log := [] }
      zeroKey).2 (Or.inl rfl)).2.1,
   (((ctor_identity (B := ListBucket) { content := none, writable := true, log := [] }
      zeroKey).2 (Or.inl rfl)).2.2.1 rfl).1⟩

/-! ## The table file -/

theorem bytesToU32_u32ToBytes (v : Nat) (h : v < 2 ^ 32) (rest : List Nat) :
    bytesToU32 ((u32ToBytes v ++ rest).take 4) = v := by
  simp only [u32ToBytes, bytesToU32, List.cons_append, List.nil_append, List.take_succ_cons,
    List.take_zero, List.getD_cons_zero, List.getD_cons_succ]
  norm_num at h
  omega

theorem encodeHeader_length (h : BucketHeader) :
    (encodeHeader h).length = sizeofBucketHeader := rfl

theorem decodeHeader_encodeHeader (h : BucketHeader) (rest : List Nat)
    (hm : h.magic < 2 ^ 32) (hn : h.num_entries < 2 ^ 32) (hi : h.index < 2 ^ 32) :
    decodeHeader ((encodeHeader h ++ rest).take sizeofBucketHeader) = h := by
  have h1 := bytesToU32_u32ToBytes h.magic hm []
  have h2 := bytesToU32_u32ToBytes h.num_entries hn []
  have h3 := bytesToU32_u32ToBytes h.index hi []
  simp only [u32ToBytes, List.cons_append, List.nil_append, List.take_succ_cons, List.take_zero,
    List.append_nil] at h1 h2 h3
  cases h with
  | mk magic num_entries index =>
    simp only [encodeHeader, u32ToBytes, sizeofBucketHeader, decodeHeader, List.cons_append,
      List.nil_append, List.take_succ_cons, List.take_zero, List.drop_succ_cons, List.drop_zero,
      BucketHeader.mk.injEq] at *
    exact ⟨h1, h2, h3⟩

/-- One iteration of the loading loop on a file that still holds a whole
header and whose end-of-file indicator is clear. -/
theorem Node.loadLoop_step (ops : KBucketOps B) (fuel : Nat) (n : Node B) (bytes : List Nat)
    (hlen : sizeofBucketHeader ≤ bytes.length) :
    Node.loadLoop ops (fuel + 1) n { bytes := bytes, at_eof := false } =
      if (decodeHeader (bytes.take sizeofBucketHeader)).magic
            ≠ (ops.BUCKET_MAGIC_NUMBER + 1) % 2 ^ 32
          ∨ (decodeHeader (bytes.take sizeofBucketHeader)).num_entries > ops.K
          ∨ (decodeHeader (bytes.take sizeofBucketHeader)).index > 160 then
        .ok n
      else if (decodeHeader (bytes.take sizeofBucketHeader)).num_entries = 0 then
        Node.loadLoop ops fuel n { bytes := bytes.drop sizeofBucketHeader, at_eof := false }
      else
        match n.readSlot (decodeHeader (bytes.take sizeofBucketHeader)).index with
        | .error e => .error e
        | .ok _ =>
          match n.writeSlot (decodeHeader (bytes.take sizeofBucketHeader)).index
              (some (ops.load (ops.create (decodeHeader (bytes.take sizeofBucketHeader)).index)
                (decodeHeader (bytes.take sizeofBucketHeader))
                (bytes.drop sizeofBucketHeader)).1) with
          | .error e => .error e
          | .ok n1 =>
            Node.loadLoop ops fuel
              { n1 with num_entries :=
                  (n1.num_entries + ops.getNumEntries
                    (ops.load (ops.create (decodeHeader (bytes.take sizeofBucketHeader)).index)
                      (decodeHeader (bytes.take sizeofBucketHeader))
                      (bytes.drop sizeofBucketHeader)).1) % 2 ^ NUM_ENTRIES_BITS }
              { bytes := (bytes.drop sizeofBucketHeader).drop
                  (ops.load (ops.create (decodeHeader (bytes.take sizeofBucketHeader)).index)
                    (decodeHeader (bytes.take sizeofBucketHeader))
                    (bytes.drop sizeofBucketHeader)).2
                at_eof := decide ((bytes.drop sizeofBucketHeader).length <
                  (ops.load (ops.create (decodeHeader (bytes.take sizeofBucketHeader)).index)
                    (decodeHeader (bytes.take sizeofBucketHeader))
                    (bytes.drop sizeofBucketHeader)).2) } := by
  have hraw : (List.take sizeofBucketHeader bytes).length = sizeofBucketHeader := by
    rw [List.length_take]; omega
  have hnot : ¬ bytes.length < sizeofBucketHeader := by omega
  rw [Node.loadLoop]
  simp only [File.eof, File.read, hraw, hnot, ne_eq, not_true_eq_false, if_false,
    Bool.false_eq_true, decide_False, Bool.or_false, Bool.false_or]

/-- A file that holds less than a header stops the loop. -/
theorem Node.loadLoop_short (ops : KBucketOps B) (fuel : Nat) (n : Node B) (f : File)
    (hlen : f.bytes.length < sizeofBucketHeader) :
    Node.loadLoop ops (fuel + 1) n f = .ok n := by
  have hraw : (List.take sizeofBucketHeader f.bytes).length ≠ sizeofBucketHeader := by
    rw [List.length_take]; omega
  rw [Node.loadLoop]
  by_cases he : f.eof = true
  · simp [he]
  · rw [if_neg he]
    exact if_pos hraw

/-- A bad header stops the loop and leaves the table as it is. -/
theorem Node.loadLoop_bad (ops : KBucketOps B) (fuel : Nat) (n : Node B) (bytes : List Nat)
    (hbad : BadHeader ops bytes) :
    Node.loadLoop ops (fuel + 1) n { bytes := bytes, at_eof := false } = .ok n := by
  by_cases hlen : bytes.length < sizeofBucketHeader
  · exact Node.loadLoop_short ops fuel n _ hlen
  · rw [Node.loadLoop_step ops fuel n bytes (by omega)]
    rcases hbad with h | h | h
    · exact absurd h hlen
    · rw [if_pos (Or.inl h)]
    · rw [if_pos (Or.inr (Or.inl h))]

theorem TableRecord.header_decode (ops : KBucketOps B) (r : TableRecord B)
    (hv : r.num_entries < 2 ^ 32) (rest : List Nat) :
    decodeHeader ((r.bytes ops ++ rest).take sizeofBucketHeader) = r.header ops := by
  rw [TableRecord.bytes, List.append_assoc]
  apply decodeHeader_encodeHeader
  · exact Nat.mod_lt _ (by norm_num)
  · exact hv
  · exact lt_trans r.index.isLt (by norm_num)

theorem TableRecord.bytes_drop (ops : KBucketOps B) (r : TableRecord B) (rest : List Nat) :
    (r.bytes ops ++ rest).drop sizeofBucketHeader = r.payload ++ rest := by
  rw [TableRecord.bytes, List.append_assoc, ← encodeHeader_length (r.header ops),
    List.drop_left]

theorem TableRecord.bytes_length (ops : KBucketOps B) (r : TableRecord B) :
    (r.bytes ops).length = sizeofBucketHeader + r.payload.length := by
  rw [TableRecord.bytes, List.length_append, encodeHeader_length]

/-- The loop reads one valid record and goes on behind it. -/
theorem Node.loadLoop_record (ops : KBucketOps B) (fuel : Nat) (n : Node B) (r : TableRecord B)
    (hv : r.Valid ops) (rest : List Nat) :
    Node.loadLoop ops (fuel + 1) n { bytes := r.bytes ops ++ rest, at_eof := false } =
      Node.loadLoop ops fuel (n.applyRecord ops r) { bytes := rest, at_eof := false } := by
  obtain ⟨hK, h32, hzero, hload⟩ := hv
  have hlen : sizeofBucketHeader ≤ (r.bytes ops ++ rest).length := by
    rw [List.length_append, TableRecord.bytes_length]; omega
  rw [Node.loadLoop_step ops fuel n _ hlen, TableRecord.header_decode ops r h32 rest,
    TableRecord.bytes_drop]
  have hidx : ¬ ((r.header ops).magic ≠ (ops.BUCKET_MAGIC_NUMBER + 1) % 2 ^ 32
      ∨ (r.header ops).num_entries > ops.K ∨ (r.header ops).index > 160) := by
    have := r.index.isLt
    simp only [TableRecord.header, ne_eq, not_true_eq_false, false_or, not_or, not_lt]
    omega
  rw [if_neg hidx]
  by_cases h0 : r.num_entries = 0
  · have hh : (r.header ops).num_entries = 0 := h0
    rw [if_pos hh, hzero h0, List.nil_append]
    simp only [Node.applyRecord, h0, if_true]
  · have hh : ¬ (r.header ops).num_entries = 0 := h0
    have hi : (r.header ops).index < 160 := r.index.isLt
    have hfin : (⟨(r.header ops).index, hi⟩ : Fin 160) = r.index := rfl
    have hl : ops.load (ops.create (r.header ops).index) (r.header ops) (r.payload ++ rest)
        = (r.loaded, r.payload.length) := hload (Nat.pos_of_ne_zero h0) rest
    rw [if_neg hh, hl]
    simp only [Node.readSlot, Node.writeSlot, dif_pos hi, hfin, Node.applyRecord, h0, if_false,
      List.drop_left, List.length_append, Nat.lt_irrefl, decide_False]
    congr 2
    have : ¬ (r.payload.length + rest.length < r.payload.length) := by omega
    simp [this]

theorem tableBytes_length (ops : KBucketOps B) (recs : List (TableRecord B)) :
    recs.length ≤ (tableBytes ops recs).length := by
  induction recs with
  | nil => simp [tableBytes]
  | cons r rest ih =>
    simp only [tableBytes, List.length_append, TableRecord.bytes_length, List.length_cons,
      sizeofBucketHeader]
    omega

/-- The loop applies a sequence of valid records in order and stops at the bad
header behind them. -/
theorem Node.loadLoop_records (ops : KBucketOps B) (tail : List Nat) (hbad : BadHeader ops tail)
    (recs : List (TableRecord B)) :
    ∀ (n : Node B) (fuel : Nat), (∀ r ∈ recs, r.Valid ops) → recs.length < fuel →
      Node.loadLoop ops fuel n { bytes := tableBytes ops recs ++ tail, at_eof := false }
        = .ok (n.applyRecords ops recs) := by
  induction recs with
  | nil =>
    intro n fuel _ hf
    obtain ⟨k, rfl⟩ : ∃ k, fuel = k + 1 := ⟨fuel - 1, by simp at hf; omega⟩
    simpa [tableBytes, Node.applyRecords] using Node.loadLoop_bad ops k n tail hbad
  | cons r rest ih =>
    intro n fuel hv hf
    obtain ⟨k, rfl⟩ : ∃ k, fuel = k + 1 := ⟨fuel - 1, by simp at hf; omega⟩
    simp only [tableBytes, List.append_assoc, Node.applyRecords]
    rw [Node.loadLoop_record ops k n r (hv r (List.mem_cons_self _ _))]
    exact ih _ k (fun x hx => hv x (List.mem_cons_of_mem _ hx)) (by simp at hf; omega)

/-- Loading a file made of valid records followed by a bad header. -/
theorem Node.loadTable_records (ops : KBucketOps B) (n : Node B) (file : DiskFile)
    (recs : List (TableRecord B)) (tail : List Nat)
    (hfresh : n.delete_table = false) (hv : ∀ r ∈ recs, r.Valid ops) (hbad : BadHeader ops tail)
    (hfile : file.content = some (tableBytes ops recs ++ tail)) :
    n.loadTable ops file = .ok
      (Node.applyRecords ops { n with num_entries := 0 } recs,
       { file with log := file.log ++ [FileOp.openRead] }) := by
  have hfuel : recs.length < (tableBytes ops recs ++ tail).length + 1 := by
    have := tableBytes_length ops recs
    rw [List.length_append]; omega
  simp only [Node.loadTable, hfresh, Bool.false_eq_true, if_false, hfile,
    Node.loadLoop_records ops tail hbad recs _ _ hv hfuel]

/-- C7, code bug: `loadTable` does not reject a header whose declared index is
160.  On a file that starts with a header in the current format declaring
between 1 and `K` entries and index 160, the test `hdr.index > 160` lets the
header pass and the code reads `bucket[160]`, outside slots 0..159. -/
theorem loadTable_index_160_out_of_bounds (ops : KBucketOps B) (n : Node B) (file : DiskFile)
    (count : Nat) (rest : List Nat) (hfresh : n.delete_table = false)
    (h0 : 0 < count) (hK : count ≤ ops.K) (h32 : count < 2 ^ 32)
    (hfile : file.content = some (encodeHeader
      { magic := (ops.BUCKET_MAGIC_NUMBER + 1) % 2 ^ 32, num_entries := count, index := 160 }
        ++ rest)) :
    n.loadTable ops file = .error (.outOfBounds 160) := by
  have hdec := decodeHeader_encodeHeader
    { magic := (ops.BUCKET_MAGIC_NUMBER + 1) % 2 ^ 32, num_entries := count, index := 160 } rest
    (Nat.mod_lt _ (by norm_num)) h32 (by norm_num)
  have hlen : sizeofBucketHeader ≤ (encodeHeader
      { magic := (ops.BUCKET_MAGIC_NUMBER + 1) % 2 ^ 32, num_entries := count, index := 160 }
        ++ rest).length := by
    rw [List.length_append, encodeHeader_length]; omega
  have hpass : ¬ ((ops.BUCKET_MAGIC_NUMBER + 1) % 2 ^ 32 ≠ (ops.BUCKET_MAGIC_NUMBER + 1) % 2 ^ 32
      ∨ count > ops.K ∨ 160 > 160) := by
    simp only [ne_eq, not_true_eq_false, false_or, not_or, not_lt]
    omega
  have hne : ¬ count = 0 := by omega
  simp only [Node.loadTable, hfresh, Bool.false_eq_true, if_false, hfile]
  rw [Node.loadLoop_step ops _ _ _ hlen, hdec]
  simp [Node.readSlot, hne, Nat.not_lt.mpr hK]

/-- C7, witness: a table file made of one header that declares one entry and
index 160. -/
theorem loadTable_index_160_out_of_bounds_witness :
    restartedNode.delete_table = false ∧ 0 < 1 ∧ 1 ≤ exampleOps.K ∧ 1 < 2 ^ 32 ∧
    restartedNode.loadTable exampleOps
      { content := some (encodeHeader
          { magic := (exampleOps.BUCKET_MAGIC_NUMBER + 1) % 2 ^ 32, num_entries := 1, index := 160 }
            ++ [])
        writable := true
        log := [] } = .error (.outOfBounds 160) :=
  ⟨by decide, by decide, by decide, by decide,
    loadTable_index_160_out_of_bounds exampleOps restartedNode _ 1 [] (by decide) (by decide)
      (by decide) (by decide) rfl⟩

theorem Node.applyRecords_append (ops : KBucketOps B) (a b : List (TableRecord B)) :
    ∀ n : Node B, n.applyRecords ops (a ++ b) = (n.applyRecords ops a).applyRecords ops b := by
  induction a with
  | nil => intro n; rfl
  | cons r rest ih => intro n; exact ih (n.applyRecord ops r)

theorem Node.applyRecord_bucket (ops : KBucketOps B) (n : Node B) (r : TableRecord B)
    (h : 0 < r.num_entries) (i : Fin 160) :
    (n.applyRecord ops r).bucket i = if i = r.index then some r.loaded else n.bucket i := by
  have h0 : ¬ r.num_entries = 0 := by omega
  simp only [Node.applyRecord, h0, if_false, Function.update_apply]

/-- A slot that no record declares keeps its bucket. -/
theorem Node.applyRecords_other (ops : KBucketOps B) (recs : List (TableRecord B)) (i : Fin 160) :
    ∀ n : Node B, (∀ r ∈ recs, r.index ≠ i) → (n.applyRecords ops recs).bucket i = n.bucket i := by
  induction recs with
  | nil => intro n _; rfl
  | cons r rest ih =>
    intro n h
    rw [Node.applyRecords, ih _ (fun x hx => h x (List.mem_cons_of_mem _ hx))]
    have hr : r.index ≠ i := h r (List.mem_cons_self _ _)
    by_cases h0 : r.num_entries = 0
    · simp only [Node.applyRecord, h0, if_true]
    · simp only [Node.applyRecord, h0, if_false, Function.update_noteq (Ne.symm hr)]

/-- A slot that is present stays present. -/
theorem Node.applyRecords_present (ops : KBucketOps B) (recs : List (TableRecord B))
    (i : Fin 160) :
    ∀ n : Node B, (n.bucket i).isSome = true →
      ((n.applyRecords ops recs).bucket i).isSome = true := by
  induction recs with
  | nil => intro n h; exact h
  | cons r rest ih =>
    intro n h
    rw [Node.applyRecords]
    apply ih
    by_cases h0 : r.num_entries = 0
    · simpa only [Node.applyRecord, h0, if_true] using h
    · simp only [Node.applyRecord, h0, if_false, Function.update_apply]
      split
      · rfl
      · exact h

/-- Every record with entries leaves its slot present. -/
theorem Node.applyRecords_declared (ops : KBucketOps B) (recs : List (TableRecord B)) :
    ∀ n : Node B, ∀ r ∈ recs, 0 < r.num_entries →
      ((n.applyRecords ops recs).bucket r.index).isSome = true := by
  induction recs with
  | nil => intro n r hr; cases hr
  | cons x rest ih =>
    intro n r hr hpos
    rw [Node.applyRecords]
    rcases List.mem_cons.mp hr with rfl | hmem
    · apply Node.applyRecords_present
      rw [Node.applyRecord_bucket ops n r hpos, if_pos rfl]
      rfl
    · exact ih _ r hmem hpos

/-- The last record with entries that declares a slot decides what the slot
holds. -/
theorem Node.applyRecords_last (ops : KBucketOps B) (n : Node B)
    (before : List (TableRecord B)) (r : TableRecord B) (later : List (TableRecord B))
    (hpos : 0 < r.num_entries) (hlater : ∀ x ∈ later, x.index ≠ r.index) :
    (n.applyRecords ops (before ++ r :: later)).bucket r.index = some r.loaded := by
  rw [Node.applyRecords_append, Node.applyRecords, Node.applyRecords_other ops later _ _ hlater,
    Node.applyRecord_bucket ops _ r hpos, if_pos rfl]

/-! ## The list-based bucket meets the contract of the collaborator -/

theorem encodeEntries_length (es : List KBucketEntry) :
    (encodeEntries es).length = sizeofEntry * es.length := by
  induction es with
  | nil => rfl
  | cons e rest ih =>
    simp only [encodeEntries, encodeEntry, u32ToBytes, List.length_append, List.length_cons,
      List.length_nil, e.id.size_eq, ih, sizeofEntry]
    omega

theorem decodeEntries_append (k : Nat) :
    ∀ (payload rest : List Nat), payload.length = sizeofEntry * k →
      decodeEntries k (payload ++ rest) = decodeEntries k payload ∧
      (decodeEntries k payload).length = k := by
  induction k with
  | zero => intro payload rest _; exact ⟨rfl, rfl⟩
  | succ k ih =>
    intro payload rest hlen
    have h1 : ¬ (payload ++ rest).length < sizeofEntry := by
      rw [List.length_append, hlen]; simp only [sizeofEntry]; omega
    have h2 : ¬ payload.length < sizeofEntry := by
      rw [hlen]; simp only [sizeofEntry]; omega
    have hle : sizeofEntry ≤ payload.length := by omega
    have hdrop : (payload.drop sizeofEntry).length = sizeofEntry * k := by
      rw [List.length_drop, hlen]; simp only [sizeofEntry]; omega
    simp only [decodeEntries, if_neg h1, if_neg h2, List.take_append_of_le_length hle,
      List.drop_append_of_le_length hle, (ih _ rest hdrop).1, List.length_cons,
      (ih _ [] hdrop).2]
    exact ⟨trivial, trivial⟩

/-- A list-based bucket that sits in its own slot and holds at most `K`
entries writes a valid record and reads it back with as many entries. -/
theorem listBucket_savesRecord (K M : Nat) (i : Fin 160) (b : ListBucket)
    (hidx : b.index = i.val) (hK : b.entries.length ≤ K) (h32 : K < 2 ^ 32) :
    SavesRecord (listBucketOps K M) i b := by
  have hpay : ((listBucketOps K M).save b).drop sizeofBucketHeader = encodeEntries b.entries := by
    simp only [listBucketOps]
    rw [← encodeHeader_length, List.drop_left]
  have hlen := encodeEntries_length b.entries
  refine ⟨?_, ⟨hK, lt_of_le_of_lt hK h32, ?_, ?_⟩, ?_⟩
  · simp only [TableRecord.bytes, TableRecord.header, recordOf, hpay]
    simp only [listBucketOps, hidx]
  · intro h0
    have hnil : b.entries = [] := List.length_eq_zero.mp h0
    simp only [recordOf, hpay, hnil, encodeEntries]
  · intro _ rest
    simp only [recordOf, hpay, TableRecord.header]
    simp only [listBucketOps, (decodeEntries_append _ _ rest hlen).1, hlen]
  · intro _
    simp only [recordOf, hpay]
    simp only [listBucketOps, (decodeEntries_append _ _ [] hlen).2]

theorem badHeader_nil (ops : KBucketOps B) : BadHeader ops [] :=
  Or.inl (by decide)

/-- C8: for every stream made of a sequence of valid non-empty records
followed by a bad header (fewer bytes than `sizeof(BucketHeader)`, a magic
different from `BUCKET_MAGIC_NUMBER + 1`, or `num_entries > K`), `loadTable`
returns normally, the slots that the preceding records declare are present with
the entries loaded from them (where several records declare one slot, the last
of them), and nothing at or after the bad header is applied to the table: the
result is the one of the file that ends before the bad header, and a slot that
no record declares is as it was. -/
theorem loadTable_stops_at_bad_header (ops : KBucketOps B) (n : Node B) (file : DiskFile)
    (recs : List (TableRecord B)) (tail : List Nat)
    (hfresh : n.delete_table = false)
    (hv : ∀ r ∈ recs, r.Valid ops ∧ 0 < r.num_entries)
    (hbad : BadHeader ops tail)
    (hfile : file.content = some (tableBytes ops recs ++ tail)) :
    ∃ n1 : Node B,
      n.loadTable ops file = .ok (n1, { file with log := file.log ++ [FileOp.openRead] }) ∧
      n.loadTable ops { file with content := some (tableBytes ops recs) } = .ok
        (n1, { file with content := some (tableBytes ops recs)
                         log := file.log ++ [FileOp.openRead] }) ∧
      n1 = Node.applyRecords ops { n with num_entries := 0 } recs ∧
      (∀ r ∈ recs, (n1.bucket r.index).isSome = true) ∧
      (∀ before r later, recs = before ++ r :: later →
        (∀ x ∈ later, x.index ≠ r.index) → n1.bucket r.index = some r.loaded) ∧
      (∀ i, (∀ r ∈ recs, r.index ≠ i) → n1.bucket i = n.bucket i) := by
  have hvalid : ∀ r ∈ recs, r.Valid ops := fun r hr => (hv r hr).1
  refine ⟨Node.applyRecords ops { n with num_entries := 0 } recs,
    Node.loadTable_records ops n file recs tail hfresh hvalid hbad hfile, ?_, rfl, ?_, ?_, ?_⟩
  · exact Node.loadTable_records ops n { file with content := some (tableBytes ops recs) } recs []
      hfresh hvalid (badHeader_nil ops) (by simp)
  · intro r hr
    exact Node.applyRecords_declared ops recs _ r hr (hv r hr).2
  · intro before r later hrecs hlater
    have hr : r ∈ recs := by rw [hrecs]; simp
    rw [hrecs]
    exact Node.applyRecords_last ops _ before r later (hv r hr).2 hlater
  · intro i hi
    exact Node.applyRecords_other ops recs i _ hi

/-- C8, witness: the record of a bucket with three entries, followed by three
stray bytes. -/
theorem loadTable_stops_at_bad_header_witness :
    restartedNode.delete_table = false ∧
    BadHeader exampleOps [1, 2, 3] ∧
    ∃ n1 : Node ListBucket,
      restartedNode.loadTable exampleOps
          { content := some (tableBytes exampleOps [recordOf exampleOps 5 exampleBucket5]
              ++ [1, 2, 3])
            writable := true
            log := [] }
        = .ok (n1,
          { ({ content := some (tableBytes exampleOps [recordOf exampleOps 5 exampleBucket5]
                ++ [1, 2, 3])
               writable := true
               log := [] } : DiskFile) with
            log := [] ++ [FileOp.openRead] }) ∧
      restartedNode.loadTable exampleOps
          { ({ content := some (tableBytes exampleOps [recordOf exampleOps 5 exampleBucket5]
                ++ [1, 2, 3])
               writable := true
               log := [] } : DiskFile) with
            content := some (tableBytes exampleOps [recordOf exampleOps 5 exampleBucket5]) }
        = .ok (n1,
          { ({ content := some (tableBytes exampleOps [recordOf exampleOps 5 exampleBucket5]
                ++ [1, 2, 3])
               writable := true
               log := [] } : DiskFile) with
            content := some (tableBytes exampleOps [recordOf exampleOps 5 exampleBucket5])
            log := [] ++ [FileOp.openRead] }) ∧
      n1 = Node.applyRecords exampleOps { restartedNode with num_entries := 0 }
        [recordOf exampleOps 5 exampleBucket5] ∧
      (∀ r ∈ [recordOf exampleOps 5 exampleBucket5], (n1.bucket r.index).isSome = true) ∧
      (∀ before r later, [recordOf exampleOps 5 exampleBucket5] = before ++ r :: later →
        (∀ x ∈ later, x.index ≠ r.index) → n1.bucket r.index = some r.loaded) ∧
      (∀ i, (∀ r ∈ [recordOf exampleOps 5 exampleBucket5], r.index ≠ i) →
        n1.bucket i = restartedNode.bucket i) :=
  ⟨by decide, Or.inl (by decide),
    loadTable_stops_at_bad_header exampleOps restartedNode
      { content := some (tableBytes exampleOps [recordOf exampleOps 5 exampleBucket5]
          ++ [1, 2, 3])
        writable := true
        log := [] }
      [recordOf exampleOps 5 exampleBucket5] [1, 2, 3] (by decide)
      (fun r hr => by
        rw [List.mem_singleton.mp hr]
        exact ⟨(listBucket_savesRecord 8 0xB0C4B0C4 5 exampleBucket5 rfl (by decide)
          (by norm_num)).2.1, by decide⟩)
      (Or.inl (by decide)) rfl⟩

/-! ## Saving and loading back -/

theorem savedRecords_cons (ops : KBucketOps B) (n : Node B) (j : Fin 160)
    (slots : List (Fin 160)) :
    savedRecords ops n (j :: slots) =
      (match n.bucket j with
        | some b => [recordOf ops j b]
        | none => []) ++ savedRecords ops n slots := by
  unfold savedRecords
  cases h : n.bucket j <;> simp [List.filterMap_cons, h]

theorem tableBytes_append (ops : KBucketOps B) (a b : List (TableRecord B)) :
    tableBytes ops (a ++ b) = tableBytes ops a ++ tableBytes ops b := by
  induction a with
  | nil => rfl
  | cons r rest ih =>
    show r.bytes ops ++ tableBytes ops (rest ++ b) = (r.bytes ops ++ tableBytes ops rest) ++ _
    rw [ih, List.append_assoc]

/-- The bytes that the loop of `saveTable` writes are the records of the
present buckets, in the order of the slots. -/
theorem saved_bytes (ops : KBucketOps B) (n : Node B)
    (hsave : ∀ i b, n.bucket i = some b → SavesRecord ops i b) (slots : List (Fin 160)) :
    ∀ out : List Nat,
      slots.foldl
        (fun out i =>
          match n.bucket i with
          | some b => out ++ ops.save b
          | none => out)
        out
      = out ++ tableBytes ops (savedRecords ops n slots) := by
  induction slots with
  | nil => intro out; simp [savedRecords, tableBytes]
  | cons j rest ih =>
    intro out
    rw [List.foldl_cons, ih, savedRecords_cons, tableBytes_append]
    cases h : n.bucket j with
    | none => simp [tableBytes]
    | some b =>
      simp only [tableBytes, (hsave j b h).1, List.append_nil, List.append_assoc]

theorem savedRecords_valid (ops : KBucketOps B) (n : Node B)
    (hsave : ∀ i b, n.bucket i = some b → SavesRecord ops i b) (slots : List (Fin 160)) :
    ∀ r ∈ savedRecords ops n slots, r.Valid ops := by
  intro r hr
  simp only [savedRecords, List.mem_filterMap, Option.map_eq_some'] at hr
  obtain ⟨i, _, b, hb, rfl⟩ := hr
  exact (hsave i b hb).2.1

/-- The slots after the saved records of distinct slots have been applied. -/
theorem applyRecords_saved_bucket (ops : KBucketOps B) (n : Node B) (slots : List (Fin 160))
    (hnodup : slots.Nodup) :
    ∀ (m : Node B) (i : Fin 160),
      (m.applyRecords ops (savedRecords ops n slots)).bucket i =
        if i ∈ slots then
          (match n.bucket i with
            | some b =>
              if ops.getNumEntries b = 0 then m.bucket i else some (recordOf ops i b).loaded
            | none => m.bucket i)
        else m.bucket i := by
  induction slots with
  | nil => intro m i; simp [savedRecords, Node.applyRecords]
  | cons j rest ih =>
    intro m i
    have hj : j ∉ rest := (List.nodup_cons.mp hnodup).1
    have hrest : rest.Nodup := (List.nodup_cons.mp hnodup).2
    rw [savedRecords_cons, Node.applyRecords_append, ih hrest]
    by_cases hij : i = j
    · subst hij
      simp only [hj, if_false, List.mem_cons, true_or, if_true]
      cases h : n.bucket i with
      | none => simp [Node.applyRecords]
      | some b =>
        by_cases h0 : ops.getNumEntries b = 0
        · simp [Node.applyRecords, Node.applyRecord, recordOf, h0]
        · simp [Node.applyRecords, Node.applyRecord, recordOf, h0]
    · have hm : (Node.applyRecords ops m
          (match n.bucket j with
            | some b => [recordOf ops j b]
            | none => [])).bucket i = m.bucket i := by
        cases h : n.bucket j with
        | none => simp [Node.applyRecords]
        | some b =>
          by_cases h0 : ops.getNumEntries b = 0
          · simp [Node.applyRecords, Node.applyRecord, recordOf, h0]
          · simp [Node.applyRecords, Node.applyRecord, recordOf, h0,
              Function.update_noteq hij]
      simp only [List.mem_cons, hij, false_or, hm]

/-- The counter `num_entries` after the saved records have been applied is the
sum that `received` computes over the saved table. -/
theorem applyRecords_saved_count (ops : KBucketOps B) (n : Node B)
    (hsave : ∀ i b, n.bucket i = some b → SavesRecord ops i b) (slots : List (Fin 160)) :
    ∀ m : Node B, m.num_entries < 2 ^ NUM_ENTRIES_BITS →
      (m.applyRecords ops (savedRecords ops n slots)).num_entries =
        slots.foldl
          (fun num_entries i =>
            match n.bucket i with
            | some b => (num_entries + ops.getNumEntries b) % 2 ^ NUM_ENTRIES_BITS
            | none => num_entries)
          m.num_entries := by
  induction slots with
  | nil => intro m _; simp [savedRecords, Node.applyRecords]
  | cons j rest ih =>
    intro m hm
    rw [savedRecords_cons, Node.applyRecords_append, List.foldl_cons]
    cases h : n.bucket j with
    | none => simpa [Node.applyRecords] using ih m hm
    | some b =>
      by_cases h0 : ops.getNumEntries b = 0
      · have hmod : (m.num_entries + 0) % 2 ^ NUM_ENTRIES_BITS = m.num_entries := by
          rw [Nat.add_zero, Nat.mod_eq_of_lt hm]
        simp only [Node.applyRecords, Node.applyRecord, recordOf, h0, if_true, hmod]
        exact ih m hm
      · have hcount := (hsave j b h).2.2 (Nat.pos_of_ne_zero h0)
        have hlt : (m.num_entries + ops.getNumEntries b) % 2 ^ NUM_ENTRIES_BITS
            < 2 ^ NUM_ENTRIES_BITS := Nat.mod_lt _ (by positivity)
        have hstep : (Node.applyRecords ops m [recordOf ops j b]).num_entries =
            (m.num_entries + ops.getNumEntries b) % 2 ^ NUM_ENTRIES_BITS := by
          have h0r : ¬ (recordOf ops j b).num_entries = 0 := h0
          simp only [Node.applyRecords, Node.applyRecord, if_neg h0r, hcount]
        rw [ih _ (by rw [hstep]; exact hlt), hstep]

theorem Key.ofData_self (k : Key) : Key.ofData (k.data.take 20) = k := by
  apply Key.ext_data
  rw [Key.ofData_data k.data (by rw [k.size_eq]), List.take_of_length_le (by rw [k.size_eq])]
  conv_rhs => rw [← List.map_id k.data]
  apply List.map_congr_left
  intro b hb
  exact Nat.mod_eq_of_lt (k.byte_lt b hb)

/-- A node constructed on a key file that holds the identifier `k`. -/
theorem Node.ctor_of_key (key_file : DiskFile) (r k : Key)
    (hkey : key_file.content = some k.data) :
    (Node.ctor (B := B) key_file r).1 =
      { our_id := k, bucket := fun _ => none, num_receives := 0, num_entries := 0,
        delete_table := false } := by
  have hl : (List.take 20 k.data).length = 20 := by
    rw [List.length_take, k.size_eq]; rfl
  simp only [Node.ctor, LoadKey, hkey, File.read, hl, ne_eq, not_true_eq_false, if_false,
    Key.ofData_self]

/-- Saving a table and loading the file into a freshly constructed table with
the same identifier: the counter of the loaded table is what the recomputing
loop yields on the saved table, and every slot has the entry count it had. -/
theorem Node.saveTable_then_loadTable (ops : KBucketOps B) (n : Node B)
    (file key_file : DiskFile) (r : Key)
    (hsave : ∀ i b, n.bucket i = some b → SavesRecord ops i b)
    (hw : file.writable = true)
    (hkey : key_file.content = some n.our_id.data) :
    ∃ m1 file1,
      (Node.ctor (B := B) key_file r).1.loadTable ops (n.saveTable ops file) = .ok (m1, file1) ∧
      m1.our_id = n.our_id ∧
      m1.num_entries = n.countEntries ops ∧
      (n.num_entries = n.countEntries ops → m1.num_entries = n.num_entries) ∧
      (∀ i, m1.entriesAt ops i = n.entriesAt ops i) ∧
      (∀ i, n.bucket i = none → m1.bucket i = none) := by
  have hbytes := saved_bytes ops n hsave (List.finRange 160) []
  rw [List.nil_append] at hbytes
  have hcontent : (n.saveTable ops file).content
      = some (tableBytes ops (savedRecords ops n (List.finRange 160)) ++ []) := by
    simp only [Node.saveTable, hw, Bool.not_true, Bool.false_eq_true, if_false, hbytes,
      List.append_nil]
  have hload := Node.loadTable_records ops (Node.ctor (B := B) key_file r).1
    (n.saveTable ops file) (savedRecords ops n (List.finRange 160)) []
    (by rw [Node.ctor_of_key key_file r n.our_id hkey])
    (savedRecords_valid ops n hsave _) (badHeader_nil ops) hcontent
  rw [Node.ctor_of_key key_file r n.our_id hkey] at hload ⊢
  have hcount := applyRecords_saved_count ops n hsave (List.finRange 160)
    { our_id := n.our_id, bucket := fun _ => none, num_receives := 0, num_entries := 0,
      delete_table := false } (by simp only [NUM_ENTRIES_BITS]; norm_num)
  have hbucket := applyRecords_saved_bucket ops n (List.finRange 160) (List.nodup_finRange 160)
    { our_id := n.our_id, bucket := fun _ => none, num_receives := 0, num_entries := 0,
      delete_table := false }
  have hid : ∀ (recs : List (TableRecord B)) (m : Node B),
      (m.applyRecords ops recs).our_id = m.our_id := by
    intro recs
    induction recs with
    | nil => intro m; rfl
    | cons x rest ih =>
      intro m
      rw [Node.applyRecords, ih]
      unfold Node.applyRecord
      split <;> rfl
  refine ⟨_, _, hload, hid _ _, hcount, fun h => h ▸ hcount, ?_, ?_⟩
  · intro i
    simp only [Node.entriesAt, hbucket i, List.mem_finRange, if_true]
    cases h : n.bucket i with
    | none => rfl
    | some b =>
      by_cases h0 : ops.getNumEntries b = 0
      · simp [h0]
      · simp only [h0, if_false]
        exact (hsave i b h).2.2 (Nat.pos_of_ne_zero h0)
  · intro i h
    simp only [hbucket i, List.mem_finRange, if_true, h]

theorem exampleTable_savesRecord :
    ∀ i b, exampleTable.bucket i = some b → SavesRecord exampleOps i b := by
  intro i b hb
  simp only [exampleTable] at hb
  by_cases h5 : i.val = 5
  · simp only [h5, if_true, Option.some.injEq] at hb
    subst hb
    exact listBucket_savesRecord 8 0xB0C4B0C4 i exampleBucket5 h5.symm (by decide) (by norm_num)
  · by_cases h140 : i.val = 140
    · simp only [h140, if_true, Option.some.injEq] at hb
      norm_num at hb
      subst hb
      exact listBucket_savesRecord 8 0xB0C4B0C4 i exampleBucket140 h140.symm (by decide)
        (by norm_num)
    · simp [h5, h140] at hb

/-! ## The key that `RandomKeyInBucket` synthesizes -/

theorem shift80 (j : Nat) (hj : j < 8) : 0x80 >>> j = 2 ^ (7 - j) := by
  interval_cases j <;> rfl

theorem mask_test (j ob : Nat) (hj : j < 8) :
    ((0x80 >>> j) &&& ob ≠ 0) ↔ ob.testBit (7 - j) = true := by
  rw [shift80 j hj, Nat.two_pow_and]
  have hpos : 0 < 2 ^ (7 - j) := by positivity
  cases ob.testBit (7 - j) <;> simp

/-- Setting the bit `0x80 >> j` of a byte. -/
theorem setBit_testBit (d j p : Nat) (hj : j < 8) (hp : p < 8) :
    ((d ||| (0x80 >>> j)) % 256).testBit p = (d.testBit p || decide (7 - j = p)) := by
  have h256 : (256 : Nat) = 2 ^ 8 := by norm_num
  rw [shift80 j hj, h256, Nat.testBit_mod_two_pow, Nat.testBit_or, Nat.testBit_two_pow]
  simp [hp]

/-- Clearing the bit `0x80 >> j` of a byte. -/
theorem clearBit_testBit (d j p : Nat) (hj : j < 8) (hp : p < 8) :
    ((d &&& (0xFF ^^^ (0x80 >>> j))) % 256).testBit p = (d.testBit p && !decide (7 - j = p)) := by
  have h256 : (256 : Nat) = 2 ^ 8 := by norm_num
  have h255 : (0xFF : Nat) = 2 ^ 8 - 1 := by norm_num
  rw [shift80 j hj, h256, Nat.testBit_mod_two_pow, Nat.testBit_and, Nat.testBit_xor, h255,
    Nat.testBit_two_pow_sub_one, Nat.testBit_two_pow]
  simp [hp]

theorem getD_set (l : List Nat) (n i v : Nat) :
    (l.set n v).getD i 0 = if n = i ∧ n < l.length then v else l.getD i 0 := by
  rw [List.getD_eq_getElem?_getD, List.getD_eq_getElem?_getD, List.getElem?_set]
  by_cases h : n = i
  · subst h
    by_cases h2 : n < l.length
    · simp [h2]
    · have : l[n]? = none := List.getElem?_eq_none (by omega)
      simp [h2, this]
  · simp [h]

theorem copyBytes_length (src : List Nat) (n : Nat) (data : List Nat) :
    (copyBytes src n data).length = data.length := by
  induction n with
  | zero => rfl
  | succ n ih => rw [copyBytes, List.length_set, ih]

/-- After the first loop the bytes before `n` are those of `our_id`, the others
those of the random key. -/
theorem copyBytes_getD (src data : List Nat) (n i : Nat) :
    (copyBytes src n data).getD i 0 =
      if i < n ∧ i < data.length then src.getD i 0 else data.getD i 0 := by
  induction n with
  | zero => simp [copyBytes]
  | succ n ih =>
    rw [copyBytes, getD_set, ih, copyBytes_length]
    by_cases h : n = i
    · subst h
      by_cases h2 : n < data.length
      · simp [h2]
      · simp [h2]
    · have h1 : (i < n + 1 ∧ i < data.length) ↔ (i < n ∧ i < data.length) := by omega
      simp only [h, false_and, if_false, h1]

theorem copyBits_length (ob nb n : Nat) (data : List Nat) :
    (copyBits ob nb n data).length = data.length := by
  induction n with
  | zero => rfl
  | succ n ih =>
    simp only [copyBits]
    split <;> rw [List.length_set, ih]

/-- After the second loop the byte `nb` has the bits `0x80 >> j`, `j < n`, of
`ob`; its other bits and the other bytes are as before. -/
theorem copyBits_getD (ob nb : Nat) (data : List Nat) (hnb : nb < data.length) (n : Nat)
    (hn : n ≤ 8) :
    (∀ i, i ≠ nb → (copyBits ob nb n data).getD i 0 = data.getD i 0) ∧
    (∀ p, p < 8 → ((copyBits ob nb n data).getD nb 0).testBit p =
      if 7 - p < n then ob.testBit p else (data.getD nb 0).testBit p) := by
  induction n with
  | zero => exact ⟨fun _ _ => rfl, fun p _ => by simp [copyBits]⟩
  | succ n ih =>
    obtain ⟨ih1, ih2⟩ := ih (by omega)
    have hlen := copyBits_length ob nb n data
    have hj : n < 8 := by omega
    constructor
    · intro i hi
      simp only [copyBits]
      have hni : ¬ (nb = i ∧ nb < (copyBits ob nb n data).length) := fun h => hi h.1.symm
      split <;> rw [getD_set, if_neg hni] <;> exact ih1 i hi
    · intro p hp
      simp only [copyBits]
      split
      · rename_i hc
        have hbit := (mask_test n ob hj).mp hc
        rw [getD_set, if_pos ⟨rfl, by rw [hlen]; exact hnb⟩, setBit_testBit _ _ _ hj hp, ih2 p hp]
        by_cases hpn : 7 - n = p
        · subst hpn
          have : 7 - (7 - n) < n + 1 := by omega
          simp [this, hbit]
        · have h1 : (7 - p < n + 1) ↔ (7 - p < n) := by omega
          simp [hpn, h1]
      · rename_i hc
        have hbit : ob.testBit (7 - n) = false := by
          have := (mask_test n ob hj).not.mp hc
          simpa using this
        rw [getD_set, if_pos ⟨rfl, by rw [hlen]; exact hnb⟩, clearBit_testBit _ _ _ hj hp,
          ih2 p hp]
        by_cases hpn : 7 - n = p
        · subst hpn
          have : 7 - (7 - n) < n + 1 := by omega
          simp [this, hbit]
        · have h1 : (7 - p < n + 1) ↔ (7 - p < n) := by omega
          simp [hpn, h1]

/-- The last step of `RandomKeyInBucket` inverts the bit `0x80 >> m` of the
byte `nb` and leaves everything else as it is. -/
theorem flipBit_getD (ob nb m : Nat) (cb : List Nat) (hnb : nb < cb.length) (hm : m < 8) :
    (∀ i, i ≠ nb →
      (if (0x80 >>> m) &&& ob ≠ 0 then
          cb.set nb ((cb.getD nb 0 &&& (0xFF ^^^ (0x80 >>> m))) % 256)
        else
          cb.set nb ((cb.getD nb 0 ||| (0x80 >>> m)) % 256)).getD i 0 = cb.getD i 0) ∧
    (∀ p, p < 8 →
      ((if (0x80 >>> m) &&& ob ≠ 0 then
          cb.set nb ((cb.getD nb 0 &&& (0xFF ^^^ (0x80 >>> m))) % 256)
        else
          cb.set nb ((cb.getD nb 0 ||| (0x80 >>> m)) % 256)).getD nb 0).testBit p =
        if 7 - m = p then !ob.testBit p else (cb.getD nb 0).testBit p) := by
  constructor
  · intro i hi
    have hni : ¬ (nb = i ∧ nb < cb.length) := fun h => hi h.1.symm
    split <;> rw [getD_set, if_neg hni]
  · intro p hp
    split
    · rename_i hc
      have hbit := (mask_test m ob hm).mp hc
      rw [getD_set, if_pos ⟨rfl, hnb⟩, clearBit_testBit _ _ _ hm hp]
      by_cases hpm : 7 - m = p
      · subst hpm; simp [hbit]
      · simp [hpm]
    · rename_i hc
      have hbit : ob.testBit (7 - m) = false := by
        have := (mask_test m ob hm).not.mp hc
        simpa using this
      rw [getD_set, if_pos ⟨rfl, hnb⟩, setBit_testBit _ _ _ hm hp]
      by_cases hpm : 7 - m = p
      · subst hpm; simp [hbit]
      · simp [hpm]

/-- The scan skips the zero bytes and returns at the first byte that is not
zero. -/
theorem findBucketScan_first (p : Nat) :
    ∀ (l : List Nat) (i0 k : Nat), p < l.length → i0 + p ≤ 19 →
      (∀ i, i < p → l.getD i 0 = 0) → l.getD p 0 ≠ 0 →
      findBucketBit (l.getD p 0) 19 8 = some k →
      findBucketScan l i0 = (19 - (i0 + p)) * 8 + k := by
  induction p with
  | zero =>
    intro l i0 k hlen hi0 _ hx hk
    cases l with
    | nil => simp at hlen
    | cons h t =>
      simp only [List.getD_cons_zero] at hx hk
      simp only [findBucketScan, if_neg hx, findBucketBit_shift h i0 (by omega) 8 (le_refl _), hk,
        Option.map_some', Nat.add_zero]
  | succ p ih =>
    intro l i0 k hlen hi0 hzero hx hk
    cases l with
    | nil => simp at hlen
    | cons h t =>
      have h0 : h = 0 := by simpa using hzero 0 (by omega)
      simp only [List.getD_cons_succ] at hx hk
      have hscan : findBucketScan (h :: t) i0 = findBucketScan t (i0 + 1) := by
        simp only [findBucketScan, h0, if_true]
      rw [hscan, ih t (i0 + 1) k (by simpa using hlen) (by omega)
        (fun i hi => by simpa using hzero (i + 1) (by omega)) hx hk]
      congr 2
      omega

theorem Key.ofData_getD (buf : List Nat) (i : Nat) (hi : i < 20) :
    (Key.ofData buf).data.getD i 0 = buf.getD i 0 % 256 := by
  have hl : i < ((List.range 20).map fun i => buf.getD i 0 % 256).length := by simpa using hi
  rw [List.getD_eq_getElem?_getD]
  simp only [Key.ofData]
  rw [List.getElem?_eq_getElem hl]
  simp

theorem Key.distance_getD (a b : Key) (i : Nat) (hi : i < 20) :
    (Key.distance a b).data.getD i 0 = a.data.getD i 0 ^^^ b.data.getD i 0 := by
  have ha : i < a.data.length := by rw [a.size_eq]; exact hi
  have hb : i < b.data.length := by rw [b.size_eq]; exact hi
  have hz : i < (List.zipWith (fun x y => x ^^^ y) a.data b.data).length := by
    simp [ha, hb]
  simp only [Key.distance, List.getD_eq_getElem?_getD, List.getElem?_eq_getElem hz,
    List.getElem?_eq_getElem ha, List.getElem?_eq_getElem hb, List.getElem_zipWith,
    Option.getD_some]

theorem Key.getD_lt (a : Key) (i : Nat) : a.data.getD i 0 < 256 := by
  rw [List.getD_eq_getElem?_getD]
  by_cases h : i < a.data.length
  · rw [List.getElem?_eq_getElem h]
    exact a.byte_lt _ (List.getElem_mem _)
  · rw [List.getElem?_eq_none (by omega)]
    norm_num

theorem testBit_mod_256 (x p : Nat) :
    (x % 256).testBit p = (decide (p < 8) && x.testBit p) := by
  have h256 : (256 : Nat) = 2 ^ 8 := by norm_num
  rw [h256, Nat.testBit_mod_two_pow]

/-- The bytes of the synthesized key: before byte `b / 8` those of `our_id`;
in byte `b / 8` the bits before bit `b % 8` (counted from the most significant
one) are those of `our_id`, bit `b % 8` is the complement of the one of
`our_id`, and the bits behind it are those of the random key; behind byte
`b / 8` the bytes of the random key. -/
theorem RandomKeyInBucket_bytes (b : Nat) (hb : b < 160) (our_id r : Key) :
    (∀ i, i < b / 8 →
      (RandomKeyInBucket b our_id r).data.getD i 0 = our_id.data.getD i 0) ∧
    (∀ p, p < 8 →
      ((RandomKeyInBucket b our_id r).data.getD (b / 8) 0).testBit p =
        if 7 - p < b % 8 then (our_id.data.getD (b / 8) 0).testBit p
        else if 7 - p = b % 8 then !(our_id.data.getD (b / 8) 0).testBit p
        else (r.data.getD (b / 8) 0).testBit p) ∧
    (∀ i, b / 8 < i → i < 20 →
      (RandomKeyInBucket b our_id r).data.getD i 0 = r.data.getD i 0) := by
  have hnb : b / 8 % 256 = b / 8 := Nat.mod_eq_of_lt (by omega)
  have hnb20 : b / 8 < 20 := by omega
  have hm : b % 8 < 8 := Nat.mod_lt _ (by norm_num)
  have hlen1 : (copyBytes our_id.data (b / 8) r.data).length = 20 := by
    rw [copyBytes_length, r.size_eq]
  have hcb := copyBits_getD (our_id.data.getD (b / 8) 0) (b / 8)
    (copyBytes our_id.data (b / 8) r.data) (by rw [hlen1]; exact hnb20) (b % 8) (by omega)
  have hlen2 : (copyBits (our_id.data.getD (b / 8) 0) (b / 8) (b % 8)
      (copyBytes our_id.data (b / 8) r.data)).length = 20 := by
    rw [copyBits_length, hlen1]
  have hfl := flipBit_getD (our_id.data.getD (b / 8) 0) (b / 8) (b % 8)
    (copyBits (our_id.data.getD (b / 8) 0) (b / 8) (b % 8)
      (copyBytes our_id.data (b / 8) r.data)) (by rw [hlen2]; exact hnb20) hm
  refine ⟨?_, ?_, ?_⟩
  · intro i hi
    have hne : i ≠ b / 8 := by omega
    rw [RandomKeyInBucket, hnb, Key.ofData_getD _ i (by omega), hfl.1 i hne, hcb.1 i hne,
      copyBytes_getD, if_pos ⟨hi, by rw [r.size_eq]; omega⟩,
      Nat.mod_eq_of_lt (Key.getD_lt our_id i)]
  · intro p hp
    rw [RandomKeyInBucket, hnb, Key.ofData_getD _ _ hnb20, testBit_mod_256,
      hfl.2 p hp, hcb.2 p hp, copyBytes_getD]
    have hno : ¬ (b / 8 < b / 8 ∧ b / 8 < r.data.length) := by omega
    rw [if_neg hno]
    by_cases h1 : 7 - p < b % 8
    · have h2 : ¬ 7 - b % 8 = p := by omega
      simp [hp, h1, h2]
    · by_cases h2 : 7 - p = b % 8
      · have h3 : 7 - b % 8 = p := by omega
        simp [hp, h1, h2, h3]
      · have h3 : ¬ 7 - b % 8 = p := by omega
        simp [hp, h1, h2, h3]
  · intro i hi hi20
    have hne : i ≠ b / 8 := by omega
    have hno : ¬ (i < b / 8 ∧ i < r.data.length) := by omega
    rw [RandomKeyInBucket, hnb, Key.ofData_getD _ i hi20, hfl.1 i hne, hcb.1 i hne,
      copyBytes_getD, if_neg hno, Nat.mod_eq_of_lt (Key.getD_lt r i)]

/-- The bucket of the synthesized key: `findBucket` puts the key that
`RandomKeyInBucket(b, our_id)` makes in bucket `159 - b`, whatever the random
key is. -/
theorem findBucket_RandomKeyInBucket (b : Nat) (hb : b < 160) (our_id r : Key) :
    findBucket our_id (RandomKeyInBucket b our_id r) = 159 - b := by
  obtain ⟨hbefore, hbits, _⟩ := RandomKeyInBucket_bytes b hb our_id r
  have hnb20 : b / 8 < 20 := by omega
  have hlen : ((RandomKeyInBucket b our_id r).distance our_id).data.length = 20 :=
    Key.size_eq _
  have hzero : ∀ i, i < b / 8 →
      ((RandomKeyInBucket b our_id r).distance our_id).data.getD i 0 = 0 := by
    intro i hi
    rw [Key.distance_getD _ _ i (by omega), hbefore i hi, Nat.xor_self]
  have hx := Key.distance_getD (RandomKeyInBucket b our_id r) our_id (b / 8) hnb20
  have hxlt : ((RandomKeyInBucket b our_id r).distance our_id).data.getD (b / 8) 0 < 256 :=
    Key.getD_lt _ _
  have hob : our_id.data.getD (b / 8) 0 < 256 := Key.getD_lt _ _
  have hk8 : (RandomKeyInBucket b our_id r).data.getD (b / 8) 0 < 256 := Key.getD_lt _ _
  have htop : (((RandomKeyInBucket b our_id r).distance our_id).data.getD (b / 8) 0).testBit
      (7 - b % 8) = true := by
    rw [hx, Nat.testBit_xor, hbits _ (by omega)]
    have h1 : ¬ 7 - (7 - b % 8) < b % 8 := by omega
    have h2 : 7 - (7 - b % 8) = b % 8 := by omega
    simp [h1, h2]
  have hhigh : ∀ p, p ≥ 8 - b % 8 →
      (((RandomKeyInBucket b our_id r).distance our_id).data.getD (b / 8) 0).testBit p
        = false := by
    intro p hp
    by_cases hp8 : p < 8
    · rw [hx, Nat.testBit_xor, hbits p hp8, if_pos (by omega)]
      simp
    · apply Nat.testBit_lt_two_pow
      calc _ < 256 := hxlt
        _ = 2 ^ 8 := by norm_num
        _ ≤ 2 ^ p := Nat.pow_le_pow_right (by norm_num) (by omega)
  have hge := Nat.testBit_implies_ge htop
  have hlt := Nat.lt_pow_two_of_testBit _ hhigh
  have hpos : 0 < ((RandomKeyInBucket b our_id r).distance our_id).data.getD (b / 8) 0 :=
    lt_of_lt_of_le (by positivity) hge
  obtain ⟨k, _, hk, hklo, hkhi⟩ := findBucketBit_byte _ hxlt hpos
  have hkeq : k = 7 - b % 8 := by
    by_contra hne
    rcases Nat.lt_or_gt_of_ne hne with h | h
    · have := Nat.pow_le_pow_right (show 0 < 2 by norm_num) (show k + 1 ≤ 7 - b % 8 by omega)
      omega
    · have := Nat.pow_le_pow_right (show 0 < 2 by norm_num) (show 8 - b % 8 ≤ k by omega)
      omega
  rw [findBucket, findBucketScan_first (b / 8) _ 0 k (by rw [hlen]; exact hnb20) (by omega) hzero
    (by omega) hk, hkeq]
  omega

/-- C2, code bug: for every bucket index i in 0..159, every local id A and
every random key drawn inside `RandomKeyInBucket`, `findBucket` puts the key
synthesized for bucket i in bucket 159 - i, which is never bucket i; in
particular the keys made for buckets 0, 79 and 159 land in buckets 159, 80 and
0. -/
theorem RandomKeyInBucket_mirrored_bucket (i : Nat) (hi : i < 160) (A r : Key) :
    findBucket A (RandomKeyInBucket i A r) = 159 - i ∧
    findBucket A (RandomKeyInBucket i A r) ≠ i := by
  have h := findBucket_RandomKeyInBucket i hi A r
  exact ⟨h, by omega⟩

/-- C2, witness: bucket 0, local id 0 and the random key 0. -/
theorem RandomKeyInBucket_mirrored_bucket_witness :
    0 < 160 ∧
    findBucket zeroKey (RandomKeyInBucket 0 zeroKey zeroKey) = 159 - 0 ∧
    findBucket zeroKey (RandomKeyInBucket 0 zeroKey zeroKey) ≠ 0 :=
  ⟨by decide, RandomKeyInBucket_mirrored_bucket 0 (by decide) zeroKey zeroKey⟩

/-! ## Self-observations -/

/-- C14: a self-observation is discarded and not counted: for every table
state, `received` with a message whose id equals `our_id` returns the node and
the engine as they were, so all 160 slots, `num_receives` and `num_entries` are
unchanged, no bucket is created and no self-lookup is requested. -/
theorem received_self_is_discarded (ops : KBucketOps B) (n : Node B) (dh_table : DHT)
    (msg : MsgBase) (h : msg.id = n.our_id) :
    n.received ops dh_table msg = .ok (n, dh_table) ∧
    ∀ n1 dh1, n.received ops dh_table msg = .ok (n1, dh1) →
      (∀ i, n1.bucket i = n.bucket i) ∧ n1.num_receives = n.num_receives ∧
      n1.num_entries = n.num_entries ∧ dh1.findOwnNodeCalls = dh_table.findOwnNodeCalls := by
  have hres := Node.received_self ops n dh_table msg h
  refine ⟨hres, ?_⟩
  intro n1 dh1 h1
  rw [hres] at h1
  simp only [Except.ok.injEq, Prod.mk.injEq] at h1
  obtain ⟨rfl, rfl⟩ := h1
  exact ⟨fun _ => rfl, rfl, rfl, rfl⟩

/-- C14, witness: the node with identifier zero hears of the identifier
zero. -/
theorem received_self_is_discarded_witness :
    ({ id := zeroKey, origin := 9, destination := 0 } : MsgBase).id = exampleTable.our_id ∧
    (exampleTable.received exampleOps { findOwnNodeCalls := 0 }
        { id := zeroKey, origin := 9, destination := 0 }
      = .ok (exampleTable, { findOwnNodeCalls := 0 }) ∧
    ∀ n1 dh1, exampleTable.received exampleOps { findOwnNodeCalls := 0 }
        { id := zeroKey, origin := 9, destination := 0 } = .ok (n1, dh1) →
      (∀ i, n1.bucket i = exampleTable.bucket i) ∧ n1.num_receives = exampleTable.num_receives ∧
      n1.num_entries = exampleTable.num_entries ∧
      dh1.findOwnNodeCalls = ({ findOwnNodeCalls := 0 } : DHT).findOwnNodeCalls) :=
  ⟨rfl, received_self_is_discarded exampleOps exampleTable { findOwnNodeCalls := 0 }
    { id := zeroKey, origin := 9, destination := 0 } rfl⟩

/-! ## The bucket index, byte by byte -/

theorem exists_first_nonzero : ∀ l : List Nat, bytesToNat l ≠ 0 →
    ∃ i, i < l.length ∧ (∀ i1, i1 < i → l.getD i1 0 = 0) ∧ l.getD i 0 ≠ 0 := by
  intro l
  induction l with
  | nil => intro h; exact absurd rfl h
  | cons b rest ih =>
    intro h
    by_cases hb : b = 0
    · subst hb
      have hrest : bytesToNat rest ≠ 0 := by simpa [bytesToNat] using h
      obtain ⟨i, hi, hz, hx⟩ := ih hrest
      refine ⟨i + 1, by simpa using hi, ?_, by simpa using hx⟩
      intro i1 hi1
      cases i1 with
      | zero => rfl
      | succ k => simpa using hz k (by omega)
    · exact ⟨0, by simp, fun i1 hi1 => absurd hi1 (Nat.not_lt_zero _), by simpa using hb⟩

/-- The index that `findBucket` returns, in terms of the byte and the bit at
which the scan stops. -/
theorem findBucket_byte_bit (our_id id : Key) (h : id ≠ our_id) :
    ∃ i j, i < 20 ∧ j < 8 ∧
      (∀ i1, i1 < i → (Key.distance id our_id).data.getD i1 0 = 0) ∧
      ((Key.distance id our_id).data.getD i 0).testBit (7 - j) = true ∧
      (∀ j1, j1 < j → ((Key.distance id our_id).data.getD i 0).testBit (7 - j1) = false) ∧
      findBucket our_id id = (19 - i) * 8 + (7 - j) := by
  have hne : bytesToNat (Key.distance id our_id).data ≠ 0 := by
    intro h0
    exact h (Key.distance_eq_zero.mp h0)
  obtain ⟨i, hi, hz, hx⟩ := exists_first_nonzero _ hne
  rw [(Key.distance id our_id).size_eq] at hi
  have hlt : (Key.distance id our_id).data.getD i 0 < 256 := Key.getD_lt _ _
  obtain ⟨k, hk8, hk, hlo, hhi⟩ := findBucketBit_byte _ hlt (Nat.pos_of_ne_zero hx)
  refine ⟨i, 7 - k, hi, by omega, hz, ?_, ?_, ?_⟩
  · have : 7 - (7 - k) = k := by omega
    rw [this]
    exact testBit_of_pow_le_lt hlo hhi
  · intro j1 hj1
    apply Nat.testBit_lt_two_pow
    exact lt_of_lt_of_le hhi (Nat.pow_le_pow_right (by norm_num) (by omega))
  · have : 7 - (7 - k) = k := by omega
    rw [findBucket, findBucketScan_first i _ 0 k
      (by rw [(Key.distance id our_id).size_eq]; exact hi) (by omega) hz hx hk, this,
      Nat.zero_add]

theorem pow_bounds_unique {v k1 k2 : Nat} (h1 : 2 ^ k1 ≤ v) (h2 : v < 2 ^ (k1 + 1))
    (h3 : 2 ^ k2 ≤ v) (h4 : v < 2 ^ (k2 + 1)) : k1 = k2 := by
  by_contra hne
  rcases Nat.lt_or_gt_of_ne hne with h | h
  · have := Nat.pow_le_pow_right (show 0 < 2 by norm_num) (show k1 + 1 ≤ k2 by omega)
    omega
  · have := Nat.pow_le_pow_right (show 0 < 2 by norm_num) (show k2 + 1 ≤ k1 by omega)
    omega

/-- C18: for every id different from `our_id`, `findBucket(id) = k` exactly
when 2^k <= (id XOR our_id, read as a 160-bit big-endian integer) < 2^(k+1);
the code returns (19 - i)*8 + (7 - j) for the first set bit found at byte i,
bit j from the most significant end, so a distance whose top bit is set gives
159 and a distance of 1 gives 0. -/
theorem findBucket_eq_iff (our_id id : Key) (h : id ≠ our_id) :
    (∀ k, findBucket our_id id = k ↔
      (2 ^ k ≤ id.toNat ^^^ our_id.toNat ∧ id.toNat ^^^ our_id.toNat < 2 ^ (k + 1))) ∧
    (∃ i j, i < 20 ∧ j < 8 ∧
      (∀ i1, i1 < i → (Key.distance id our_id).data.getD i1 0 = 0) ∧
      ((Key.distance id our_id).data.getD i 0).testBit (7 - j) = true ∧
      (∀ j1, j1 < j → ((Key.distance id our_id).data.getD i 0).testBit (7 - j1) = false) ∧
      findBucket our_id id = (19 - i) * 8 + (7 - j)) ∧
    (2 ^ 159 ≤ id.toNat ^^^ our_id.toNat → findBucket our_id id = 159) ∧
    (id.toNat ^^^ our_id.toNat = 1 → findBucket our_id id = 0) := by
  have hspec : 2 ^ findBucket our_id id ≤ id.toNat ^^^ our_id.toNat ∧
      id.toNat ^^^ our_id.toNat < 2 ^ (findBucket our_id id + 1) := by
    rcases findBucket_spec our_id id with ⟨h1, _⟩ | ⟨_, _, h3, h4⟩
    · exact absurd h1 h
    · rw [Key.toNat_distance] at h3 h4
      exact ⟨h3, h4⟩
  have hiff : ∀ k, findBucket our_id id = k ↔
      (2 ^ k ≤ id.toNat ^^^ our_id.toNat ∧ id.toNat ^^^ our_id.toNat < 2 ^ (k + 1)) := by
    intro k
    constructor
    · intro hk; rw [← hk]; exact hspec
    · intro hk; exact pow_bounds_unique hspec.1 hspec.2 hk.1 hk.2
  refine ⟨hiff, findBucket_byte_bit our_id id h, ?_, ?_⟩
  · intro htop
    apply (hiff 159).mpr
    refine ⟨htop, ?_⟩
    have := Key.toNat_lt (Key.distance id our_id)
    rwa [Key.toNat_distance] at this
  · intro hone
    apply (hiff 0).mpr
    rw [hone]
    norm_num

/-- C18, witness: the node with identifier zero and the key whose only set
bit is the most significant one. -/
theorem findBucket_eq_iff_witness :
    byteKey 0 0x80 ≠ zeroKey ∧
    ((∀ k, findBucket zeroKey (byteKey 0 0x80) = k ↔
      (2 ^ k ≤ (byteKey 0 0x80).toNat ^^^ zeroKey.toNat ∧
        (byteKey 0 0x80).toNat ^^^ zeroKey.toNat < 2 ^ (k + 1))) ∧
    (∃ i j, i < 20 ∧ j < 8 ∧
      (∀ i1, i1 < i → (Key.distance (byteKey 0 0x80) zeroKey).data.getD i1 0 = 0) ∧
      ((Key.distance (byteKey 0 0x80) zeroKey).data.getD i 0).testBit (7 - j) = true ∧
      (∀ j1, j1 < j →
        ((Key.distance (byteKey 0 0x80) zeroKey).data.getD i 0).testBit (7 - j1) = false) ∧
      findBucket zeroKey (byteKey 0 0x80) = (19 - i) * 8 + (7 - j)) ∧
    (2 ^ 159 ≤ (byteKey 0 0x80).toNat ^^^ zeroKey.toNat →
      findBucket zeroKey (byteKey 0 0x80) = 159) ∧
    ((byteKey 0 0x80).toNat ^^^ zeroKey.toNat = 1 → findBucket zeroKey (byteKey 0 0x80) = 0)) :=
  ⟨by decide, findBucket_eq_iff zeroKey (byteKey 0 0x80) (by decide)⟩

/-! ## The bits of a key -/

theorem bytesToNat_testBit : ∀ (l : List Nat), (∀ b ∈ l, b < 256) → ∀ q, q < 8 * l.length →
    (bytesToNat l).testBit q = (l.getD (l.length - 1 - q / 8) 0).testBit (q % 8) := by
  intro l
  induction l with
  | nil => intro _ q hq; simp at hq
  | cons b rest ih =>
    intro hl q hq
    have hrest : ∀ x ∈ rest, x < 256 := fun x hx => hl x (List.mem_cons_of_mem _ hx)
    have hT := bytesToNat_lt rest hrest
    rw [pow256] at hT
    simp only [List.length_cons] at hq ⊢
    rw [bytesToNat, pow256, Nat.mul_comm b, Nat.testBit_mul_pow_two_add _ hT]
    by_cases hlt : q < 8 * rest.length
    · rw [if_pos hlt, ih hrest q hlt]
      have hidx : rest.length + 1 - 1 - q / 8 = (rest.length - 1 - q / 8) + 1 := by omega
      rw [hidx, List.getD_cons_succ]
    · rw [if_neg hlt]
      have hidx : rest.length + 1 - 1 - q / 8 = 0 := by omega
      have hmod : q - 8 * rest.length = q % 8 := by omega
      rw [hidx, List.getD_cons_zero, hmod]

/-- Bit `q` of a key, read off its bytes: bit `q % 8` of byte `q / 8`, both
counted from the most significant end. -/
theorem Key.bit_eq (k : Key) (q : Nat) (hq : q < 160) :
    k.bit q = (k.data.getD (q / 8) 0).testBit (7 - q % 8) := by
  rw [Key.bit, Key.toNat, bytesToNat_testBit k.data k.byte_lt (159 - q)
    (by rw [k.size_eq]; omega), k.size_eq]
  have h1 : 20 - 1 - (159 - q) / 8 = q / 8 := by omega
  have h2 : (159 - q) % 8 = 7 - q % 8 := by omega
  rw [h1, h2]

/-- C13: for every b in 0..159, every local id A and every random key r drawn
by `RandomKeyInBucket`, the result k has, counting bits from the most
significant bit of byte 0: bits 0..b-1 equal to A's bits, bit b equal to the
complement of A's bit b, and bits b+1..159 equal to r's bits; hence the first
set bit of k XOR A, scanning from the most significant end, is exactly at
position b. -/
theorem RandomKeyInBucket_bits (b : Nat) (hb : b < 160) (A r : Key) :
    (∀ q, q < b → (RandomKeyInBucket b A r).bit q = A.bit q) ∧
    (RandomKeyInBucket b A r).bit b = !A.bit b ∧
    (∀ q, b < q → q < 160 → (RandomKeyInBucket b A r).bit q = r.bit q) ∧
    ((RandomKeyInBucket b A r).toNat ^^^ A.toNat).testBit (159 - b) = true ∧
    (∀ q, q < b → ((RandomKeyInBucket b A r).toNat ^^^ A.toNat).testBit (159 - q) = false) := by
  obtain ⟨hbefore, hbits, hafter⟩ := RandomKeyInBucket_bytes b hb A r
  have hfb := findBucket_RandomKeyInBucket b hb A r
  have hne : RandomKeyInBucket b A r ≠ A := by
    intro he
    have := findBucket_self A
    rw [he] at hfb
    omega
  have hbounds : 2 ^ (159 - b) ≤ (RandomKeyInBucket b A r).toNat ^^^ A.toNat ∧
      (RandomKeyInBucket b A r).toNat ^^^ A.toNat < 2 ^ (159 - b + 1) := by
    rcases findBucket_spec A (RandomKeyInBucket b A r) with ⟨h1, _⟩ | ⟨_, _, h3, h4⟩
    · exact absurd h1 hne
    · rw [Key.toNat_distance, hfb] at h3 h4
      exact ⟨h3, h4⟩
  refine ⟨?_, ?_, ?_, testBit_of_pow_le_lt hbounds.1 hbounds.2, ?_⟩
  · intro q hq
    rw [Key.bit_eq _ q (by omega), Key.bit_eq _ q (by omega)]
    by_cases hbyte : q / 8 < b / 8
    · rw [hbefore _ hbyte]
    · have hsame : q / 8 = b / 8 := by omega
      rw [hsame, hbits _ (by omega), if_pos (by omega)]
  · rw [Key.bit_eq _ b hb, Key.bit_eq _ b hb, hbits _ (by omega), if_neg (by omega),
      if_pos (by omega)]
  · intro q hq hq160
    rw [Key.bit_eq _ q hq160, Key.bit_eq _ q hq160]
    by_cases hbyte : b / 8 < q / 8
    · rw [hafter _ hbyte (by omega)]
    · have hsame : q / 8 = b / 8 := by omega
      rw [hsame, hbits _ (by omega), if_neg (by omega), if_neg (by omega)]
  · intro q hq
    apply Nat.testBit_lt_two_pow
    exact lt_of_lt_of_le hbounds.2 (Nat.pow_le_pow_right (by norm_num) (by omega))

/-- C13, witness: bucket 79, local id 0 and the random key 0. -/
theorem RandomKeyInBucket_bits_witness :
    79 < 160 ∧
    ((∀ q, q < 79 → (RandomKeyInBucket 79 zeroKey zeroKey).bit q = zeroKey.bit q) ∧
    (RandomKeyInBucket 79 zeroKey zeroKey).bit 79 = !zeroKey.bit 79 ∧
    (∀ q, 79 < q → q < 160 → (RandomKeyInBucket 79 zeroKey zeroKey).bit q = zeroKey.bit q) ∧
    ((RandomKeyInBucket 79 zeroKey zeroKey).toNat ^^^ zeroKey.toNat).testBit (159 - 79) = true ∧
    (∀ q, q < 79 →
      ((RandomKeyInBucket 79 zeroKey zeroKey).toNat ^^^ zeroKey.toNat).testBit (159 - q)
        = false)) :=
  ⟨by decide, RandomKeyInBucket_bits 79 (by decide) zeroKey zeroKey⟩

/-! ## The cached number of entries -/

theorem count_fold (ops : KBucketOps B) (n : Node B) (slots : List (Fin 160)) :
    ∀ acc, acc < 2 ^ NUM_ENTRIES_BITS →
      slots.foldl
        (fun num_entries i =>
          match n.bucket i with
          | some b => (num_entries + ops.getNumEntries b) % 2 ^ NUM_ENTRIES_BITS
          | none => num_entries)
        acc
      = (acc + (slots.map (n.entriesAt ops)).sum) % 2 ^ NUM_ENTRIES_BITS := by
  induction slots with
  | nil => intro acc h; simp [Nat.mod_eq_of_lt h]
  | cons i rest ih =>
    intro acc h
    rw [List.foldl_cons, List.map_cons, List.sum_cons]
    cases hb : n.bucket i with
    | none =>
      simp only [Node.entriesAt, hb, Nat.zero_add]
      exact ih acc h
    | some b =>
      simp only [Node.entriesAt, hb]
      rw [ih _ (Nat.mod_lt _ (by positivity)), Nat.mod_add_mod, Nat.add_assoc]

/-- The loop that recomputes `num_entries` yields the sum of the entry counts,
reduced to the width of the counter. -/
theorem Node.countEntries_eq (ops : KBucketOps B) (n : Node B) :
    n.countEntries ops = n.totalEntries ops % 2 ^ NUM_ENTRIES_BITS := by
  rw [Node.countEntries, count_fold ops n _ 0 (by positivity), Nat.zero_add, Node.totalEntries]

theorem sum_le_of_le (f : Fin 160 → Nat) (c : Nat) (h : ∀ i, f i ≤ c) :
    ∀ l : List (Fin 160), (l.map f).sum ≤ l.length * c := by
  intro l
  induction l with
  | nil => simp
  | cons i rest ih =>
    simp only [List.map_cons, List.sum_cons, List.length_cons]
    have := h i
    nlinarith

/-- After a contact that is not the node itself, `num_entries` is what the
recomputing loop yields on the table that the call leaves. -/
theorem Node.received_num_entries (ops : KBucketOps B) (n : Node B) (dh_table : DHT)
    (msg : MsgBase) (h : msg.id ≠ n.our_id) :
    ∃ n1 dh1, n.received ops dh_table msg = .ok (n1, dh1) ∧
      n1.num_entries = n1.countEntries ops := by
  have hi : findBucket n.our_id msg.id < 160 := (findBucket_lt_iff _ _).mpr h
  refine ⟨_, _, Node.received_other ops n dh_table msg hi, ?_⟩
  simp only [Node.countEntries]

/-- C12: after every `received` call with an id different from `our_id`,
`num_entries` equals the sum of `getNumEntries` over all present buckets,
whether or not the bucket accepted the insertion and whatever `num_entries`
held before the call.  The counter is a 32-bit value, so it is the sum reduced
modulo 2^32; it is the sum itself as soon as the sum fits, which it does when
every bucket respects its capacity K and 160 * K < 2^32. -/
theorem received_recomputes_num_entries (ops : KBucketOps B) (n : Node B) (dh_table : DHT)
    (msg : MsgBase) (h : msg.id ≠ n.our_id) :
    ∃ n1 dh1, n.received ops dh_table msg = .ok (n1, dh1) ∧
      n1.num_entries = n1.totalEntries ops % 2 ^ 32 ∧
      (n1.totalEntries ops < 2 ^ 32 → n1.num_entries = n1.totalEntries ops) ∧
      ((∀ i b, n1.bucket i = some b → ops.getNumEntries b ≤ ops.K) → 160 * ops.K < 2 ^ 32 →
        n1.num_entries = n1.totalEntries ops) := by
  obtain ⟨n1, dh1, hres, hnum⟩ := Node.received_num_entries ops n dh_table msg h
  have hmod : n1.num_entries = n1.totalEntries ops % 2 ^ 32 := by
    rw [hnum, Node.countEntries_eq]; rfl
  refine ⟨n1, dh1, hres, hmod, ?_, ?_⟩
  · intro hfit
    rw [hmod, Nat.mod_eq_of_lt hfit]
  · intro hcap hK
    have hle : ∀ i, n1.entriesAt ops i ≤ ops.K := by
      intro i
      unfold Node.entriesAt
      split
      · rename_i b hb
        exact hcap i b hb
      · exact Nat.zero_le _
    have hsum := sum_le_of_le _ ops.K hle (List.finRange 160)
    rw [List.length_finRange] at hsum
    have hfit : n1.totalEntries ops < 2 ^ 32 := lt_of_le_of_lt hsum hK
    rw [hmod, Nat.mod_eq_of_lt hfit]

/-- C12, witness: the first contact of a fresh table. -/
theorem received_recomputes_num_entries_witness :
    exampleMsg.id ≠ exampleNode.our_id ∧
    ∃ n1 dh1, exampleNode.received exampleOps { findOwnNodeCalls := 0 } exampleMsg
        = .ok (n1, dh1) ∧
      n1.num_entries = n1.totalEntries exampleOps % 2 ^ 32 ∧
      (n1.totalEntries exampleOps < 2 ^ 32 → n1.num_entries = n1.totalEntries exampleOps) ∧
      ((∀ i b, n1.bucket i = some b → exampleOps.getNumEntries b ≤ exampleOps.K) →
        160 * exampleOps.K < 2 ^ 32 → n1.num_entries = n1.totalEntries exampleOps) :=
  ⟨by decide, received_recomputes_num_entries exampleOps exampleNode { findOwnNodeCalls := 0 }
    exampleMsg (by decide)⟩

/-! ## Headers without entries, and loading twice -/

/-- C16: for every valid header declaring zero entries, `loadTable` allocates
no bucket and leaves the slot at the declared index as it was (absent stays
absent, an existing bucket is not discarded), and then continues with the next
header, so valid records following a zero-entry header are still loaded: the
iteration that reads the header goes on with the same table behind the header,
and the file loads to the table it loads to without that header. -/
theorem loadTable_skips_empty_header (ops : KBucketOps B) (n : Node B) (file : DiskFile)
    (before after : List (TableRecord B)) (z : TableRecord B) (tail : List Nat)
    (hfresh : n.delete_table = false)
    (hz : z.num_entries = 0) (hzv : z.Valid ops)
    (hv : ∀ r ∈ before ++ after, r.Valid ops)
    (hbad : BadHeader ops tail)
    (hfile : file.content = some (tableBytes ops (before ++ z :: after) ++ tail)) :
    (∀ (fuel : Nat) (m : Node B) (rest : List Nat),
      Node.loadLoop ops (fuel + 1) m { bytes := z.bytes ops ++ rest, at_eof := false }
        = Node.loadLoop ops fuel m { bytes := rest, at_eof := false }) ∧
    ∃ n1 : Node B,
      n.loadTable ops file = .ok (n1, { file with log := file.log ++ [FileOp.openRead] }) ∧
      n.loadTable ops { file with content := some (tableBytes ops (before ++ after) ++ tail) }
        = .ok (n1, { file with content := some (tableBytes ops (before ++ after) ++ tail)
                               log := file.log ++ [FileOp.openRead] }) ∧
      n1 = Node.applyRecords ops { n with num_entries := 0 } (before ++ after) ∧
      ((∀ r ∈ before ++ after, r.index ≠ z.index) → n1.bucket z.index = n.bucket z.index) := by
  have hskip : ∀ m : Node B, m.applyRecord ops z = m := by
    intro m
    simp only [Node.applyRecord, hz, if_true]
  constructor
  · intro fuel m rest
    rw [Node.loadLoop_record ops fuel m z hzv rest, hskip]
  · have hall : ∀ r ∈ before ++ z :: after, r.Valid ops := by
      intro r hr
      rcases List.mem_append.mp hr with h1 | h1
      · exact hv r (List.mem_append.mpr (Or.inl h1))
      · rcases List.mem_cons.mp h1 with rfl | h2
        · exact hzv
        · exact hv r (List.mem_append.mpr (Or.inr h2))
    have hsame : Node.applyRecords ops { n with num_entries := 0 } (before ++ z :: after)
        = Node.applyRecords ops { n with num_entries := 0 } (before ++ after) := by
      rw [Node.applyRecords_append, Node.applyRecords_append, Node.applyRecords, hskip]
    refine ⟨Node.applyRecords ops { n with num_entries := 0 } (before ++ after), ?_, ?_, rfl, ?_⟩
    · rw [← hsame]
      exact Node.loadTable_records ops n file _ tail hfresh hall hbad hfile
    · exact Node.loadTable_records ops n
        { file with content := some (tableBytes ops (before ++ after) ++ tail) } _ tail hfresh hv
        hbad rfl
    · intro hno
      exact Node.applyRecords_other ops _ z.index _ hno

/-- C19: the fresh-identity suppression of loading is one-shot: after
`loadTable` has been called once on a node constructed with a fresh identity
(the key file could not be read), `delete_table` is false, so a second
`loadTable` call on the same node reads the file it is given and applies its
valid records. -/
theorem loadTable_suppression_is_one_shot (ops : KBucketOps B) (key_file : DiskFile) (r : Key)
    (first second : DiskFile) (recs : List (TableRecord B)) (tail : List Nat)
    (hkey : key_file.content = none ∨
      ∃ bytes, key_file.content = some bytes ∧ bytes.length < 20)
    (hv : ∀ x ∈ recs, x.Valid ops) (hbad : BadHeader ops tail)
    (hsecond : second.content = some (tableBytes ops recs ++ tail)) :
    (Node.ctor (B := B) key_file r).1.delete_table = true ∧
    ∃ n1 first1,
      (Node.ctor (B := B) key_file r).1.loadTable ops first = .ok (n1, first1) ∧
      n1.delete_table = false ∧
      n1.bucket = (Node.ctor (B := B) key_file r).1.bucket ∧
      first1.log = first.log ++ [FileOp.delete] ∧
      n1.loadTable ops second = .ok
        (Node.applyRecords ops { n1 with num_entries := 0 } recs,
         { second with log := second.log ++ [FileOp.openRead] }) := by
  have hload : LoadKey key_file r =
      (r, true, SaveKey r { key_file with log := key_file.log ++ [FileOp.openRead] }) := by
    rcases hkey with hc | ⟨bytes, hc, hlen⟩
    · simp only [LoadKey, hc]
    · have hl : (List.take 20 bytes).length ≠ 20 := by simp; omega
      simp only [LoadKey, hc, File.read, ne_eq, hl, not_false_eq_true, if_true]
  have hflag : (Node.ctor (B := B) key_file r).1.delete_table = true := by
    simp only [Node.ctor, hload]
  refine ⟨hflag, { (Node.ctor (B := B) key_file r).1 with delete_table := false },
    { first with content := none, log := first.log ++ [FileOp.delete] }, ?_, rfl, rfl, rfl, ?_⟩
  · simp only [Node.loadTable, hflag, if_true]
  · exact Node.loadTable_records ops _ second recs tail rfl hv hbad hsecond

theorem exampleRecord5_valid : exampleRecord5.Valid exampleOps :=
  (listBucket_savesRecord 8 0xB0C4B0C4 5 exampleBucket5 rfl (by decide) (by norm_num)).2.1

theorem exampleRecord7_valid : exampleRecord7.Valid exampleOps :=
  (listBucket_savesRecord 8 0xB0C4B0C4 7 exampleBucket7 rfl (by decide) (by norm_num)).2.1

/-- C16, witness: a file with a header for slot 7 that declares no entry,
followed by the record of slot 5. -/
theorem loadTable_skips_empty_header_witness :
    restartedNode.delete_table = false ∧ exampleRecord7.num_entries = 0 ∧
    BadHeader exampleOps [] ∧
    (∀ (fuel : Nat) (m : Node ListBucket) (rest : List Nat),
      Node.loadLoop exampleOps (fuel + 1) m
          { bytes := exampleRecord7.bytes exampleOps ++ rest, at_eof := false }
        = Node.loadLoop exampleOps fuel m { bytes := rest, at_eof := false }) ∧
    ∃ n1 : Node ListBucket,
      restartedNode.loadTable exampleOps exampleFileWithEmptyHeader = .ok
        (n1, { exampleFileWithEmptyHeader with
               log := exampleFileWithEmptyHeader.log ++ [FileOp.openRead] }) ∧
      restartedNode.loadTable exampleOps
          { exampleFileWithEmptyHeader with
            content := some (tableBytes exampleOps ([] ++ [exampleRecord5]) ++ []) }
        = .ok (n1, { exampleFileWithEmptyHeader with
                     content := some (tableBytes exampleOps ([] ++ [exampleRecord5]) ++ [])
                     log := exampleFileWithEmptyHeader.log ++ [FileOp.openRead] }) ∧
      n1 = Node.applyRecords exampleOps { restartedNode with num_entries := 0 }
        ([] ++ [exampleRecord5]) ∧
      ((∀ r ∈ [] ++ [exampleRecord5], r.index ≠ exampleRecord7.index) →
        n1.bucket exampleRecord7.index = restartedNode.bucket exampleRecord7.index) :=
  ⟨by decide, by decide, badHeader_nil exampleOps,
    loadTable_skips_empty_header exampleOps restartedNode exampleFileWithEmptyHeader
      [] [exampleRecord5] exampleRecord7 [] (by decide) (by decide) exampleRecord7_valid
      (fun r hr => by
        rw [List.nil_append, List.mem_singleton] at hr
        rw [hr]
        exact exampleRecord5_valid)
      (badHeader_nil exampleOps) rfl⟩

/-- C19, witness: a node whose key file is absent, a first load, and a second
load of a file with the record of slot 5. -/
theorem loadTable_suppression_is_one_shot_witness :
    (({ content := none, writable := true, log := [] } : DiskFile).content = none ∨
      ∃ bytes, ({ content := none, writable := true, log := [] } : DiskFile).content = some bytes
        ∧ bytes.length < 20) ∧
    BadHeader exampleOps [] ∧
    (Node.ctor (B := ListBucket) { content := none, writable := true, log := [] }
      zeroKey).1.delete_table = true ∧
    ∃ n1 first1,
      (Node.ctor (B := ListBucket) { content := none, writable := true, log := [] }
        zeroKey).1.loadTable exampleOps exampleFile5 = .ok (n1, first1) ∧
      n1.delete_table = false ∧
      n1.bucket = (Node.ctor (B := ListBucket) { content := none, writable := true, log := [] }
        zeroKey).1.bucket ∧
      first1.log = exampleFile5.log ++ [FileOp.delete] ∧
      n1.loadTable exampleOps exampleFile5 = .ok
        (Node.applyRecords exampleOps { n1 with num_entries := 0 } [exampleRecord5],
         { exampleFile5 with log := exampleFile5.log ++ [FileOp.openRead] }) :=
  ⟨Or.inl rfl, badHeader_nil exampleOps,
    loadTable_suppression_is_one_shot exampleOps { content := none, writable := true, log := [] }
      zeroKey exampleFile5 exampleFile5 [exampleRecord5] [] (Or.inl rfl)
      (fun x hx => by
        rw [List.mem_singleton] at hx
        rw [hx]
        exact exampleRecord5_valid)
      (badHeader_nil exampleOps) rfl⟩

/-! ## The cached number of entries after a load -/

set_option maxRecDepth 100000 in
/-- C15, code bug: after `loadTable`, `num_entries` need not be the sum of
`getNumEntries` over the present buckets.  A file in which two valid records of
three entries each declare slot 5 leaves one bucket of three entries and
`num_entries == 6`; an empty file loaded into a table that holds four entries
leaves the four entries and `num_entries == 0`. -/
theorem loadTable_num_entries_drifts :
    (∃ n1 file1, restartedNode.loadTable exampleOps exampleFileTwice5 = .ok (n1, file1) ∧
      n1.num_entries = 6 ∧ n1.totalEntries exampleOps = 3 ∧ n1.countEntries exampleOps = 3) ∧
    (∃ n1 file1, exampleTable.loadTable exampleOps exampleEmptyFile = .ok (n1, file1) ∧
      n1.num_entries = 0 ∧ n1.totalEntries exampleOps = 4 ∧ n1.countEntries exampleOps = 4) := by
  constructor
  · refine ⟨_, _, Node.loadTable_records exampleOps restartedNode exampleFileTwice5
      [exampleRecord5, exampleRecord5] [] (by decide) ?_ (badHeader_nil exampleOps) rfl, ?_, ?_, ?_⟩
    · intro r hr
      have : r = exampleRecord5 := by
        rcases List.mem_cons.mp hr with h | h
        · exact h
        · exact List.mem_singleton.mp h
      rw [this]
      exact exampleRecord5_valid
    · decide
    · decide
    · decide
  · refine ⟨_, _, Node.loadTable_records exampleOps exampleTable exampleEmptyFile
      [] [] (by decide) (fun r hr => by cases hr) (badHeader_nil exampleOps) rfl, ?_, ?_, ?_⟩
    · decide
    · decide
    · decide

/-! ## Timeout dispatch -/

theorem Node.withSlot_same (n : Node B) (i : Fin 160) (b : B) (h : n.bucket i = some b) :
    n.withSlot i b = n := by
  cases n with
  | mk our_id bucket num_receives num_entries delete_table =>
    simp only [Node.withSlot] at h ⊢
    rw [← h, Function.update_eq_self]

/-- While no bucket claims the address, the loop asks every present bucket and
leaves the table as it is. -/
theorem Node.onTimeoutLoop_quiet (ops : KBucketOps B) (addr : Nat)
    (hquiet : ∀ b, (ops.onTimeout b addr).1 = false → (ops.onTimeout b addr).2 = b)
    (slots : List (Fin 160)) :
    ∀ (n : Node B) (asked : List (Fin 160)), (∀ j ∈ slots, n.claims ops addr j = false) →
      Node.onTimeoutLoop ops addr slots n asked =
        (n, asked ++ slots.filter fun j => (n.bucket j).isSome) := by
  induction slots with
  | nil => intro n asked _; simp [Node.onTimeoutLoop]
  | cons j rest ih =>
    intro n asked hno
    have hrest : ∀ x ∈ rest, n.claims ops addr x = false :=
      fun x hx => hno x (List.mem_cons_of_mem _ hx)
    have hj := hno j (List.mem_cons_self _ _)
    cases hb : n.bucket j with
    | none =>
      simp only [Node.onTimeoutLoop, hb, List.filter_cons, Option.isSome_none,
        Bool.false_eq_true, if_false]
      exact ih n asked hrest
    | some c =>
      have hc : (ops.onTimeout c addr).1 = false := by
        simpa only [Node.claims, hb] using hj
      simp only [Node.onTimeoutLoop, hb, hc, Bool.false_eq_true, if_false, hquiet c hc,
        Node.withSlot_same n j c hb, List.filter_cons, Option.isSome_some, if_true]
      rw [ih n (asked ++ [j]) hrest, List.append_assoc, List.singleton_append]

/-- The loop stops at the first bucket that claims the address. -/
theorem Node.onTimeoutLoop_claim (ops : KBucketOps B) (addr : Nat)
    (hquiet : ∀ b, (ops.onTimeout b addr).1 = false → (ops.onTimeout b addr).2 = b)
    (before later : List (Fin 160)) (i : Fin 160) (b : B) (n : Node B) (asked : List (Fin 160))
    (hno : ∀ j ∈ before, n.claims ops addr j = false)
    (hb : n.bucket i = some b) (hclaim : (ops.onTimeout b addr).1 = true) :
    Node.onTimeoutLoop ops addr (before ++ i :: later) n asked =
      (n.withSlot i (ops.onTimeout b addr).2,
       asked ++ (before.filter fun j => (n.bucket j).isSome) ++ [i]) := by
  induction before generalizing asked with
  | nil =>
    simp only [List.nil_append, Node.onTimeoutLoop, hb, hclaim, if_true, List.filter_nil,
      List.append_nil]
  | cons j rest ih =>
    have hrest : ∀ x ∈ rest, n.claims ops addr x = false :=
      fun x hx => hno x (List.mem_cons_of_mem _ hx)
    have hj := hno j (List.mem_cons_self _ _)
    cases hbj : n.bucket j with
    | none =>
      simp only [List.cons_append, Node.onTimeoutLoop, hbj, List.filter_cons,
        Option.isSome_none, Bool.false_eq_true, if_false]
      exact ih asked hrest
    | some c =>
      have hc : (ops.onTimeout c addr).1 = false := by
        simpa only [Node.claims, hbj] using hj
      simp only [List.cons_append, Node.onTimeoutLoop, hbj, hc, Bool.false_eq_true, if_false,
        hquiet c hc, Node.withSlot_same n j c hbj, List.filter_cons, Option.isSome_some, if_true]
      refine (ih (asked ++ [j]) hrest).trans ?_
      simp only [List.append_assoc, List.singleton_append, List.cons_append, List.nil_append]

/-- C11: `onTimeout` short-circuits.  Given that a bucket which does not claim
the destination origin leaves itself unchanged, it asks present buckets in
ascending index order and stops at the first bucket whose `onTimeout` claims
the origin: that bucket is updated, exactly the present buckets up to it are
asked, and no other slot, in particular none with a higher index, is asked or
changed; if no bucket claims the origin the table is left unchanged. -/
theorem onTimeout_short_circuit (ops : KBucketOps B) (n : Node B) (msg : MsgBase)
    (hquiet : ∀ b, (ops.onTimeout b msg.destination).1 = false →
      (ops.onTimeout b msg.destination).2 = b) :
    (∀ (i : Fin 160) (b : B), n.bucket i = some b →
      (ops.onTimeout b msg.destination).1 = true →
      (∀ j, j < i → n.claims ops msg.destination j = false) →
        (n.onTimeout ops msg).1 = n.withSlot i (ops.onTimeout b msg.destination).2 ∧
        (∀ j, j ≠ i → (n.onTimeout ops msg).1.bucket j = n.bucket j) ∧
        (∀ j, j ∈ (n.onTimeout ops msg).2 ↔ (j ≤ i ∧ (n.bucket j).isSome = true)) ∧
        (n.onTimeout ops msg).2.Pairwise (fun x y => x < y)) ∧
    ((∀ j, n.claims ops msg.destination j = false) →
        (n.onTimeout ops msg).1 = n ∧
        (n.onTimeout ops msg).2 = (List.finRange 160).filter fun j => (n.bucket j).isSome) := by
  constructor
  · intro i b hb hclaim hfirst
    obtain ⟨before, later, hsplit⟩ := List.append_of_mem (List.mem_finRange i)
    have hsorted := List.pairwise_lt_finRange 160
    rw [hsplit, List.pairwise_append] at hsorted
    obtain ⟨_, hlater, hcross⟩ := hsorted
    have hbefore_lt : ∀ j ∈ before, j < i := fun j hj => hcross j hj i (List.mem_cons_self _ _)
    have hlater_gt : ∀ j ∈ later, i < j := fun j hj => (List.pairwise_cons.mp hlater).1 j hj
    have hrun := Node.onTimeoutLoop_claim ops msg.destination hquiet before later i b n []
      (fun j hj => hfirst j (hbefore_lt j hj)) hb hclaim
    have hout : n.onTimeout ops msg = (n.withSlot i (ops.onTimeout b msg.destination).2,
        [] ++ (before.filter fun j => (n.bucket j).isSome) ++ [i]) := by
      rw [Node.onTimeout, hsplit, hrun]
    rw [hout]
    refine ⟨rfl, ?_, ?_, ?_⟩
    · intro j hj
      simp only [Node.withSlot, Function.update_noteq hj]
    · intro j
      simp only [List.nil_append, List.mem_append, List.mem_filter, List.mem_singleton]
      constructor
      · rintro (⟨hjb, hjp⟩ | rfl)
        · exact ⟨le_of_lt (hbefore_lt j hjb), hjp⟩
        · exact ⟨le_refl _, by rw [hb]; rfl⟩
      · rintro ⟨hle, hp⟩
        rcases lt_or_eq_of_le hle with hlt | heq
        · left
          refine ⟨?_, hp⟩
          have hmem : j ∈ before ++ i :: later := hsplit ▸ List.mem_finRange j
          rcases List.mem_append.mp hmem with h1 | h1
          · exact h1
          · rcases List.mem_cons.mp h1 with h2 | h2
            · exact absurd h2 (ne_of_lt hlt)
            · exact absurd (hlater_gt j h2) (not_lt_of_gt hlt)
        · right; exact heq
    · have hsub : ([] ++ (before.filter fun j => (n.bucket j).isSome) ++ [i]).Sublist
          (before ++ i :: later) := by
        rw [List.nil_append]
        exact List.Sublist.append (List.filter_sublist _)
          (List.cons_sublist_cons.mpr (List.nil_sublist _))
      exact List.Pairwise.sublist hsub (hsplit ▸ List.pairwise_lt_finRange 160)
  · intro hnone
    have hrun := Node.onTimeoutLoop_quiet ops msg.destination hquiet (List.finRange 160) n []
      (fun j _ => hnone j)
    rw [Node.onTimeout, hrun]
    exact ⟨rfl, List.nil_append _⟩

theorem listBucket_onTimeout_quiet (K M : Nat) (addr : Nat) (b : ListBucket) :
    ((listBucketOps K M).onTimeout b addr).1 = false →
      ((listBucketOps K M).onTimeout b addr).2 = b := by
  simp only [listBucketOps]
  split
  · intro h; cases h
  · intro _; rfl

set_option maxRecDepth 100000 in
/-- C11, witness: the address 77 is in the bucket of slot 10 only; buckets are
present in slots 5, 10 and 140. -/
theorem onTimeout_short_circuit_witness :
    (∀ b, (exampleOps.onTimeout b exampleTimeout.destination).1 = false →
      (exampleOps.onTimeout b exampleTimeout.destination).2 = b) ∧
    exampleTimeoutTable.bucket 10 = some exampleBucket10 ∧
    (exampleOps.onTimeout exampleBucket10 exampleTimeout.destination).1 = true ∧
    (∀ j : Fin 160, j < 10 →
      exampleTimeoutTable.claims exampleOps exampleTimeout.destination j = false) ∧
    ((exampleTimeoutTable.onTimeout exampleOps exampleTimeout).1 =
        exampleTimeoutTable.withSlot 10
          (exampleOps.onTimeout exampleBucket10 exampleTimeout.destination).2 ∧
      (∀ j, j ≠ 10 →
        (exampleTimeoutTable.onTimeout exampleOps exampleTimeout).1.bucket j
          = exampleTimeoutTable.bucket j) ∧
      (∀ j, j ∈ (exampleTimeoutTable.onTimeout exampleOps exampleTimeout).2 ↔
        (j ≤ 10 ∧ (exampleTimeoutTable.bucket j).isSome = true)) ∧
      (exampleTimeoutTable.onTimeout exampleOps exampleTimeout).2.Pairwise
        (fun x y => x < y)) :=
  ⟨listBucket_onTimeout_quiet 8 0xB0C4B0C4 exampleTimeout.destination, rfl, by decide,
    by decide,
    (onTimeout_short_circuit exampleOps exampleTimeoutTable exampleTimeout
      (listBucket_onTimeout_quiet 8 0xB0C4B0C4 exampleTimeout.destination)).1
      10 exampleBucket10 rfl (by decide) (by decide)⟩

/-! ## K-closest dispatch -/

theorem Node.withSlot_isSome (n : Node B) (i : Fin 160) (b c : B) (h : n.bucket i = some b)
    (j : Fin 160) : ((n.withSlot i c).bucket j).isSome = (n.bucket j).isSome := by
  simp only [Node.withSlot, Function.update_apply]
  split
  · rename_i hji
    rw [hji, h]
    rfl
  · rfl

/-- The loop of the k-closest dispatch delegates to the present buckets of the
slots it visits, in the order of the visit, and touches no counter. -/
theorem Node.findKClosestLoop_calls (ops : KBucketOps B) (slots : List (Fin 160)) :
    ∀ (n : Node B) (kns : KClosestNodesSearch) (called : List (Fin 160)),
      (Node.findKClosestLoop ops slots n kns called).2.2
        = called ++ slots.filter (fun j => (n.bucket j).isSome) ∧
      (Node.findKClosestLoop ops slots n kns called).1.our_id = n.our_id ∧
      (Node.findKClosestLoop ops slots n kns called).1.num_receives = n.num_receives ∧
      (Node.findKClosestLoop ops slots n kns called).1.num_entries = n.num_entries ∧
      (Node.findKClosestLoop ops slots n kns called).1.delete_table = n.delete_table ∧
      ∀ j, ((Node.findKClosestLoop ops slots n kns called).1.bucket j).isSome
        = (n.bucket j).isSome := by
  induction slots with
  | nil => intro n kns called; simp [Node.findKClosestLoop]
  | cons i rest ih =>
    intro n kns called
    cases hb : n.bucket i with
    | none =>
      simp only [Node.findKClosestLoop, hb, List.filter_cons, Option.isSome_none,
        Bool.false_eq_true, if_false]
      exact ih n kns called
    | some b =>
      obtain ⟨h1, h2, h3, h4, h5, h6⟩ := ih (n.withSlot i (ops.findKClosestNodes b kns).1)
        (ops.findKClosestNodes b kns).2 (called ++ [i])
      have hsame : ∀ j, ((n.withSlot i (ops.findKClosestNodes b kns).1).bucket j).isSome
          = (n.bucket j).isSome := Node.withSlot_isSome n i b _ hb
      simp only [Node.findKClosestLoop, hb, List.filter_cons, Option.isSome_some, if_true]
      refine ⟨?_, h2, h3, h4, h5, fun j => (h6 j).trans (hsame j)⟩
      rw [h1, List.filter_congr (fun x _ => hsame x), List.append_assoc, List.singleton_append]

/-- With buckets that a k-closest search does not modify, the loop leaves the
table as it is. -/
theorem Node.findKClosestLoop_table (ops : KBucketOps B)
    (hro : ∀ b kns, (ops.findKClosestNodes b kns).1 = b) (slots : List (Fin 160)) :
    ∀ (n : Node B) (kns : KClosestNodesSearch) (called : List (Fin 160)),
      (Node.findKClosestLoop ops slots n kns called).1 = n ∧
      (Node.findKClosestLoop ops slots n kns called).2.1 =
        slots.foldl
          (fun acc j =>
            match n.bucket j with
            | some b => (ops.findKClosestNodes b acc).2
            | none => acc)
          kns := by
  induction slots with
  | nil => intro n kns called; exact ⟨rfl, rfl⟩
  | cons i rest ih =>
    intro n kns called
    cases hb : n.bucket i with
    | none =>
      simp only [Node.findKClosestLoop, hb, List.foldl_cons]
      exact ih n kns called
    | some b =>
      simp only [Node.findKClosestLoop, hb, List.foldl_cons, hro b kns,
        Node.withSlot_same n i b hb]
      exact ih n _ _

/-- C17: `findKClosestNodes` covers the table exhaustively: for every table
state it delegates to each present bucket exactly once, in ascending slot order
0..159, never to an absent slot, and leaves the table's counters and the
presence of every slot unchanged; the buckets themselves, and so the whole
table, are unchanged as soon as a bucket's `findKClosestNodes` does not modify
the bucket, and the accumulator then receives the contributions of the present
buckets in that order. -/
theorem findKClosestNodes_covers_table (ops : KBucketOps B) (n : Node B)
    (kns : KClosestNodesSearch) :
    (n.findKClosestNodes ops kns).2.2
      = (List.finRange 160).filter (fun j => (n.bucket j).isSome) ∧
    (n.findKClosestNodes ops kns).2.2.Pairwise (fun x y => x < y) ∧
    (n.findKClosestNodes ops kns).2.2.Nodup ∧
    (∀ j, j ∈ (n.findKClosestNodes ops kns).2.2 ↔ (n.bucket j).isSome = true) ∧
    (n.findKClosestNodes ops kns).1.num_receives = n.num_receives ∧
    (n.findKClosestNodes ops kns).1.num_entries = n.num_entries ∧
    (n.findKClosestNodes ops kns).1.delete_table = n.delete_table ∧
    (n.findKClosestNodes ops kns).1.our_id = n.our_id ∧
    (∀ j, ((n.findKClosestNodes ops kns).1.bucket j).isSome = (n.bucket j).isSome) ∧
    ((∀ b k, (ops.findKClosestNodes b k).1 = b) →
      (n.findKClosestNodes ops kns).1 = n ∧
      (n.findKClosestNodes ops kns).2.1 =
        (List.finRange 160).foldl
          (fun acc j =>
            match n.bucket j with
            | some b => (ops.findKClosestNodes b acc).2
            | none => acc)
          kns) := by
  obtain ⟨h1, h2, h3, h4, h5, h6⟩ :=
    Node.findKClosestLoop_calls ops (List.finRange 160) n kns []
  rw [List.nil_append] at h1
  have hcalled : (n.findKClosestNodes ops kns).2.2
      = (List.finRange 160).filter (fun j => (n.bucket j).isSome) := h1
  refine ⟨hcalled, ?_, ?_, ?_, h3, h4, h5, h2, h6, ?_⟩
  · rw [hcalled]
    exact List.Pairwise.sublist (List.filter_sublist _) (List.pairwise_lt_finRange 160)
  · rw [hcalled]
    exact List.Nodup.sublist (List.filter_sublist _) (List.nodup_finRange 160)
  · intro j
    rw [hcalled, List.mem_filter]
    exact ⟨fun h => h.2, fun h => ⟨List.mem_finRange j, h⟩⟩
  · intro hro
    exact Node.findKClosestLoop_table ops hro (List.finRange 160) n kns []

set_option maxRecDepth 100000 in
/-- C17, witness: on the table with buckets in slots 5, 10 and 140 the
dispatch delegates to slots 5, 10 and 140, in that order, and the list-based
bucket is not modified by a search. -/
theorem findKClosestNodes_covers_table_witness :
    (∀ b k, (exampleOps.findKClosestNodes b k).1 = b) ∧
    (exampleTimeoutTable.findKClosestNodes exampleOps { entries := [] }).2.2 = [5, 10, 140] ∧
    (exampleTimeoutTable.findKClosestNodes exampleOps { entries := [] }).2.2
      = (List.finRange 160).filter (fun j => (exampleTimeoutTable.bucket j).isSome) ∧
    (exampleTimeoutTable.findKClosestNodes exampleOps { entries := [] }).1
      = exampleTimeoutTable ∧
    (exampleTimeoutTable.findKClosestNodes exampleOps { entries := [] }).2.1 =
      (List.finRange 160).foldl
        (fun acc j =>
          match exampleTimeoutTable.bucket j with
          | some b => (exampleOps.findKClosestNodes b acc).2
          | none => acc)
        { entries := [] } :=
  ⟨fun _ _ => rfl, by decide,
    (findKClosestNodes_covers_table exampleOps exampleTimeoutTable { entries := [] }).1,
    ((findKClosestNodes_covers_table exampleOps exampleTimeoutTable
      { entries := [] }).2.2.2.2.2.2.2.2.2 (fun _ _ => rfl)).1,
    ((findKClosestNodes_covers_table exampleOps exampleTimeoutTable
      { entries := [] }).2.2.2.2.2.2.2.2.2 (fun _ _ => rfl)).2⟩

/-! ## The round trip and the cached number of entries -/

/-- C6, as amended: round trip.  For every table whose present buckets each
hold at most K entries and write a record of the form header
(`BUCKET_MAGIC_NUMBER + 1`, entry count, own index) followed by their entries,
`saveTable` followed by `loadTable` into a freshly constructed table with the
same local id (identity not fresh) yields, for every index 0..159, the same
entry count (a slot that was absent is absent again), and a `num_entries` equal
to the sum of the entry counts of the saved table's present buckets, in the
32-bit arithmetic of the counter, the sum itself when 160 * K < 2^32.  That is
the `num_entries` of the saved table whenever the saved table's counter held
that sum, as it does after any `received`; a counter that had drifted is not
reproduced. -/
theorem saveTable_loadTable_round_trip (ops : KBucketOps B) (n : Node B)
    (file key_file : DiskFile) (r : Key)
    (hsave : ∀ i b, n.bucket i = some b → SavesRecord ops i b)
    (hw : file.writable = true)
    (hkey : key_file.content = some n.our_id.data) :
    ∃ m1 file1,
      (Node.ctor (B := B) key_file r).1.loadTable ops (n.saveTable ops file) = .ok (m1, file1) ∧
      m1.our_id = n.our_id ∧
      m1.num_entries = n.countEntries ops ∧
      (n.num_entries = n.countEntries ops → m1.num_entries = n.num_entries) ∧
      (∀ i, m1.entriesAt ops i = n.entriesAt ops i) ∧
      (∀ i, n.bucket i = none → m1.bucket i = none) ∧
      m1.num_entries = n.totalEntries ops % 2 ^ 32 ∧
      (160 * ops.K < 2 ^ 32 → m1.num_entries = n.totalEntries ops) := by
  obtain ⟨m1, file1, hload, hid, hnum, hsame, hcount, habsent⟩ :=
    Node.saveTable_then_loadTable ops n file key_file r hsave hw hkey
  have hmod : m1.num_entries = n.totalEntries ops % 2 ^ 32 := by
    rw [hnum, Node.countEntries_eq]; rfl
  refine ⟨m1, file1, hload, hid, hnum, hsame, hcount, habsent, hmod, ?_⟩
  intro hK
  have hle : ∀ i, n.entriesAt ops i ≤ ops.K := by
    intro i
    unfold Node.entriesAt
    split
    · rename_i b hb
      exact (hsave i b hb).2.1.1
    · exact Nat.zero_le _
  have hsum := sum_le_of_le _ ops.K hle (List.finRange 160)
  rw [List.length_finRange] at hsum
  have hfit : n.totalEntries ops < 2 ^ 32 := lt_of_le_of_lt hsum hK
  rw [hmod, Nat.mod_eq_of_lt hfit]

/-- C6, witness: the table with three entries in slot 5 and one entry in slot
140 holds 4 entries; saved and loaded into a fresh table with the same
identifier it gives `num_entries == 4`, three entries in slot 5, one entry in
slot 140, and the other slots absent. -/
theorem saveTable_loadTable_round_trip_witness :
    (∀ i b, exampleTable.bucket i = some b → SavesRecord exampleOps i b) ∧
    exampleTableFile.writable = true ∧
    exampleKeyFile.content = some exampleTable.our_id.data ∧
    exampleTable.countEntries exampleOps = 4 ∧
    exampleTable.entriesAt exampleOps 5 = 3 ∧
    exampleTable.entriesAt exampleOps 140 = 1 ∧
    ∃ m1 file1,
      (Node.ctor (B := ListBucket) exampleKeyFile zeroKey).1.loadTable exampleOps
        (exampleTable.saveTable exampleOps exampleTableFile) = .ok (m1, file1) ∧
      m1.our_id = exampleTable.our_id ∧
      m1.num_entries = exampleTable.countEntries exampleOps ∧
      (exampleTable.num_entries = exampleTable.countEntries exampleOps →
        m1.num_entries = exampleTable.num_entries) ∧
      (∀ i, m1.entriesAt exampleOps i = exampleTable.entriesAt exampleOps i) ∧
      (∀ i, exampleTable.bucket i = none → m1.bucket i = none) ∧
      m1.num_entries = exampleTable.totalEntries exampleOps % 2 ^ 32 ∧
      (160 * exampleOps.K < 2 ^ 32 → m1.num_entries = exampleTable.totalEntries exampleOps) :=
  ⟨exampleTable_savesRecord, rfl, rfl, by decide, by decide, by decide,
    saveTable_loadTable_round_trip exampleOps exampleTable exampleTableFile exampleKeyFile zeroKey
      exampleTable_savesRecord rfl rfl⟩

set_option maxRecDepth 100000 in
theorem driftedTable_savesRecord :
    ∀ i b, driftedTable.bucket i = some b → SavesRecord exampleOps i b := by
  intro i b hb
  have hpos : 0 < exampleRecord5.num_entries := by decide
  have hidx : exampleRecord5.index = 5 := rfl
  simp only [driftedTable, Node.applyRecords, Node.applyRecord_bucket exampleOps _ _ hpos,
    hidx] at hb
  by_cases h5 : i = 5
  · subst h5
    simp only [if_true, Option.some.injEq] at hb
    subst hb
    exact listBucket_savesRecord 8 0xB0C4B0C4 5 exampleRecord5.loaded rfl (by decide)
      (by norm_num)
  · simp only [h5, if_false] at hb
    cases hb

set_option maxRecDepth 100000 in
/-- C6, counterexample: the table that a node whose identity is not fresh
holds after loading a file in which two records of three entries declare
slot 5.  One bucket with three entries is present, it writes a record of the
required form, and `num_entries` is 6; saved and loaded into a freshly
constructed table with the same local id, the table has `num_entries == 3`,
not the same `num_entries`. -/
theorem round_trip_changes_drifted_num_entries :
    restartedNode.loadTable exampleOps exampleFileTwice5 = .ok
      (driftedTable,
       { exampleFileTwice5 with log := exampleFileTwice5.log ++ [FileOp.openRead] }) ∧
    (∀ i b, driftedTable.bucket i = some b → SavesRecord exampleOps i b) ∧
    exampleKeyFile7.content = some driftedTable.our_id.data ∧
    (Node.ctor (B := ListBucket) exampleKeyFile7 zeroKey).1.our_id = driftedTable.our_id ∧
    (Node.ctor (B := ListBucket) exampleKeyFile7 zeroKey).1.delete_table = false ∧
    exampleTableFile.writable = true ∧
    driftedTable.num_entries = 6 ∧
    ∃ m1 file1,
      (Node.ctor (B := ListBucket) exampleKeyFile7 zeroKey).1.loadTable exampleOps
        (driftedTable.saveTable exampleOps exampleTableFile) = .ok (m1, file1) ∧
      m1.num_entries = 3 ∧ m1.num_entries ≠ driftedTable.num_entries := by
  have hreach : restartedNode.loadTable exampleOps exampleFileTwice5 = .ok
      (driftedTable,
       { exampleFileTwice5 with log := exampleFileTwice5.log ++ [FileOp.openRead] }) := by
    refine Node.loadTable_records exampleOps restartedNode exampleFileTwice5
      [exampleRecord5, exampleRecord5] [] (by decide) ?_ (badHeader_nil exampleOps) rfl
    intro r hr
    have : r = exampleRecord5 := by
      rcases List.mem_cons.mp hr with h | h
      · exact h
      · exact List.mem_singleton.mp h
    rw [this]
    exact exampleRecord5_valid
  have hkey : exampleKeyFile7.content = some driftedTable.our_id.data := by decide
  obtain ⟨m1, file1, hload, _, hnum, _, _, _⟩ :=
    Node.saveTable_then_loadTable exampleOps driftedTable exampleTableFile exampleKeyFile7
      zeroKey driftedTable_savesRecord rfl hkey
  have h3 : driftedTable.countEntries exampleOps = 3 := by decide
  have h6 : driftedTable.num_entries = 6 := by decide
  refine ⟨hreach, driftedTable_savesRecord, hkey, by decide, by decide, rfl, h6, m1, file1,
    hload, ?_, ?_⟩
  · rw [hnum, h3]
  · rw [hnum, h3, h6]
    decide

end dht
